import Mathlib

/-!
Verification development for the unit-and-dimension algebra engine of the
repository (core file `src/core/include/units/unit.h`).

The embedding models:
* magnitudes as sorted association lists from basis identifiers (prime
  numbers or the tagged irrational pi) to rational exponents, following the
  specification of the magnitude engine (the magnitude implementation file
  is not part of the provided sources, so it is modelled from the spec);
* unit expressions as a mutual inductive type mirroring `named_unit`,
  `scaled_unit` and `derived_unit` with numerator/denominator factor lists;
* the canonicalization algorithm `get_canonical_unit`, the unit operators
  `*`, `/`, `pow`, `1/u`, equality and convertibility, common-type
  resolution, and the symbol-formatting control flow, all translated from
  `src/core/include/units/unit.h`.

Rational arithmetic is routed through `mkRat`-based wrappers so that every
definition evaluates inside the kernel.
-/

/-! ### Kernel-evaluable rational arithmetic -/

/-- Addition on `Rat` through `mkRat`, which reduces in the kernel
(`Rat.add` itself is irreducible). -/
def qadd (a b : Rat) : Rat := mkRat (a.num * b.den + b.num * a.den) (a.den * b.den)

/-- Multiplication on `Rat` through `mkRat`. -/
def qmul (a b : Rat) : Rat := mkRat (a.num * b.num) (a.den * b.den)

/-- Negation on `Rat` (kernel-evaluable). -/
def qneg (a : Rat) : Rat := ⟨-a.num, a.den, a.den_nz, by simpa using a.reduced⟩

theorem qadd_eq (a b : Rat) : qadd a b = a + b := by
  unfold qadd
  rw [Rat.mkRat_eq_div]
  push_cast
  conv_rhs => rw [← Rat.num_div_den a, ← Rat.num_div_den b]
  have ha : ((a.den : Rat)) ≠ 0 := by exact_mod_cast a.den_nz
  have hb : ((b.den : Rat)) ≠ 0 := by exact_mod_cast b.den_nz
  rw [div_add_div _ _ ha hb]
  ring_nf

theorem qmul_eq (a b : Rat) : qmul a b = a * b := by
  unfold qmul
  rw [Rat.mkRat_eq_div]
  push_cast
  conv_rhs => rw [← Rat.num_div_den a, ← Rat.num_div_den b]
  rw [div_mul_div_comm]

theorem qneg_eq (a : Rat) : qneg a = -a := by
  unfold qneg
  apply Rat.ext <;> simp [Rat.neg_num, Rat.neg_den]

/-! ### Magnitudes

Modelled from the spec (§3, §4.1): a magnitude is a strictly positive real
scale factor represented exactly as a sorted mapping from basis identifiers
(primes, or a tagged irrational constant such as pi) to nonzero rational
exponents.  The magnitude implementation file of the repository is not part
of the provided sources; everything in this section follows the spec's
description of the magnitude engine. -/

/-- A basis identifier of a magnitude: a prime number or the tagged
irrational constant pi.  Modelled from the spec (§3). -/
inductive MBasis where
  | prim : Nat → MBasis
  | tagpi : MBasis
deriving DecidableEq

/-- Total comparison of basis identifiers; primes are ordered by value and
come before the irrational tag. -/
def cmpB : MBasis → MBasis → Ordering
  | .prim p, .prim q => if p < q then .lt else if p = q then .eq else .gt
  | .prim _, .tagpi => .lt
  | .tagpi, .prim _ => .gt
  | .tagpi, .tagpi => .eq

theorem cmpB_lt_prim {p q : Nat} (h : cmpB (.prim p) (.prim q) = .lt) : p < q := by
  simp only [cmpB] at h
  split_ifs at h <;> simp_all

theorem cmpB_eq_iff (a b : MBasis) : cmpB a b = .eq ↔ a = b := by
  cases a <;> cases b
  case prim.prim p q =>
    simp only [cmpB, MBasis.prim.injEq]
    split_ifs with h1 h2
    · simp
      omega
    · simp [h2]
    · simp
      omega
  all_goals simp [cmpB]

theorem cmpB_refl (a : MBasis) : cmpB a a = .eq := (cmpB_eq_iff a a).mpr rfl

theorem cmpB_lt_trans {a b c : MBasis} (h1 : cmpB a b = .lt) (h2 : cmpB b c = .lt) :
    cmpB a c = .lt := by
  cases a <;> cases b <;> cases c
  case prim.prim.prim p q r =>
    have hp := cmpB_lt_prim h1
    have hq := cmpB_lt_prim h2
    simp only [cmpB]
    split_ifs <;> first | rfl | omega
  case prim.prim.tagpi => simp [cmpB]
  case prim.tagpi.prim =>
    simp only [cmpB] at h2
    cases h2
  case prim.tagpi.tagpi => simp [cmpB]
  all_goals (simp only [cmpB] at h1; cases h1)

theorem cmpB_lt_asymm {a b : MBasis} (h1 : cmpB a b = .lt) : cmpB b a ≠ .lt := by
  cases a <;> cases b
  case prim.prim p q =>
    have hp := cmpB_lt_prim h1
    simp only [cmpB]
    split_ifs <;> simp
    omega
  case prim.tagpi => simp [cmpB]
  all_goals (simp only [cmpB] at h1; cases h1)

theorem cmpB_gt_iff {a b : MBasis} : cmpB a b = .gt ↔ cmpB b a = .lt := by
  cases a <;> cases b <;> simp only [cmpB]
  case prim.prim p q =>
    split_ifs <;> first | (simp; omega) | simp | omega
  all_goals simp

/-- A magnitude: association list from basis to rational exponent.  The
well-formedness predicate `wfMag` below captures the invariants (sorted
keys, no zero exponent). -/
abbrev Mag := List (MBasis × Rat)

/-- The identity magnitude (the number one). -/
def magOne : Mag := []

/-- Insert a single basis power into a magnitude, merging exponents of an
existing entry for the same basis and dropping entries whose exponent
becomes zero.  Modelled from the spec (§3: merge mappings, add exponents,
never keep a zero exponent). -/
def insMag (b : MBasis) (e : Rat) : Mag → Mag
  | [] => if e = 0 then [] else [(b, e)]
  | (c, f) :: t =>
    match cmpB b c with
    | .lt => if e = 0 then (c, f) :: t else (b, e) :: (c, f) :: t
    | .eq => if qadd e f = 0 then t else (c, qadd e f) :: t
    | .gt => (c, f) :: insMag b e t

/-- Multiplication of magnitudes: merge the two mappings, adding exponents.
Modelled from the spec (§3). -/
def magMul : Mag → Mag → Mag
  | [], r => r
  | (b, e) :: t, r => insMag b e (magMul t r)

/-- Reciprocal of a magnitude: negate every exponent.  Modelled from the
spec (§3: divide subtracts exponents). -/
def magInv (m : Mag) : Mag := m.map (fun p => (p.1, qneg p.2))

/-- Division of magnitudes.  Modelled from the spec (§3). -/
def magDiv (a b : Mag) : Mag := magMul a (magInv b)

/-- Rational power of a magnitude: multiply every exponent by the given
rational.  Modelled from the spec (§3, §4.1). -/
def magPow (m : Mag) (q : Rat) : Mag :=
  if q = 0 then [] else m.map (fun p => (p.1, qmul p.2 q))

/-- The exponent a magnitude assigns to a basis (zero when absent). -/
def expOf (m : Mag) (b : MBasis) : Rat :=
  match m with
  | [] => 0
  | (c, e) :: t => if c = b then e else expOf t b

/-- Sorted keys of a magnitude, as an all-pairs (pairwise) property. -/
def sortedMag (m : Mag) : Prop :=
  List.Pairwise (fun p q : MBasis × Rat => cmpB p.1 q.1 = .lt) m

/-- Well-formed magnitude: strictly sorted basis keys and no zero
exponents. -/
def wfMag (m : Mag) : Prop := sortedMag m ∧ ∀ p ∈ m, p.2 ≠ 0

instance : DecidablePred sortedMag := fun m => by unfold sortedMag; infer_instance

instance : DecidablePred wfMag := fun m => by unfold wfMag; infer_instance

theorem qadd_zero_left (a : Rat) : qadd 0 a = a := by rw [qadd_eq, zero_add]

/-- A basis strictly below every key of a magnitude does not occur in it. -/
theorem expOf_eq_zero_of_lt {m : Mag} {x : MBasis}
    (h : ∀ p ∈ m, cmpB x p.1 = .lt) : expOf m x = 0 := by
  induction m with
  | nil => rfl
  | cons p t ih =>
    have hx : cmpB x p.1 = .lt := h p (by simp)
    have hne : p.1 ≠ x := by
      intro he
      rw [he, (cmpB_eq_iff x x).mpr rfl] at hx
      cases hx
    simp only [expOf, if_neg hne]
    exact ih (fun q hq => h q (by simp [hq]))

theorem sortedMag_cons {p : MBasis × Rat} {t : Mag} (h : sortedMag (p :: t)) :
    (∀ q ∈ t, cmpB p.1 q.1 = .lt) ∧ sortedMag t := by
  unfold sortedMag at h ⊢
  exact ⟨fun q hq => List.rel_of_pairwise_cons h hq, h.of_cons⟩

/-- Membership in an insertion: the key is the inserted one or an original
one. -/
theorem insMag_mem {b : MBasis} {e : Rat} {m : Mag} :
    ∀ p ∈ insMag b e m, p.1 = b ∨ p ∈ m := by
  induction m with
  | nil =>
    intro p hp
    simp only [insMag] at hp
    split at hp
    · cases hp
    · left
      rw [List.mem_singleton.mp hp]
  | cons q t ih =>
    obtain ⟨c, f⟩ := q
    intro p hp
    simp only [insMag] at hp
    split at hp
    · split at hp
      · exact Or.inr hp
      · rcases List.mem_cons.mp hp with h | h
        · left
          rw [h]
        · exact Or.inr h
    · rename_i hcmp
      split at hp
      · exact Or.inr (List.mem_cons_of_mem _ hp)
      · rcases List.mem_cons.mp hp with h | h
        · left
          rw [h]
          exact ((cmpB_eq_iff b c).mp hcmp).symm
        · exact Or.inr (List.mem_cons_of_mem _ h)
    · rcases List.mem_cons.mp hp with h | h
      · rw [h]
        exact Or.inr (List.mem_cons_self _ t)
      · rcases ih p h with h2 | h2
        · exact Or.inl h2
        · exact Or.inr (List.mem_cons_of_mem _ h2)

/-- Insertion preserves sortedness of the keys. -/
theorem insMag_sorted {b : MBasis} {e : Rat} {m : Mag} (h : sortedMag m) :
    sortedMag (insMag b e m) := by
  induction m with
  | nil =>
    simp only [insMag]
    split <;> simp [sortedMag]
  | cons q t ih =>
    obtain ⟨hq, ht⟩ := sortedMag_cons h
    obtain ⟨c, f⟩ := q
    simp only [insMag]
    split
    · rename_i hcmp
      split
      · exact h
      · unfold sortedMag
        refine List.Pairwise.cons ?_ h
        intro p hp
        rcases List.mem_cons.mp hp with h2 | h2
        · rw [h2]
          exact hcmp
        · exact cmpB_lt_trans hcmp (hq p h2)
    · rename_i hcmp
      split
      · exact ht
      · unfold sortedMag
        refine List.Pairwise.cons ?_ ht
        exact hq
    · rename_i hcmp
      unfold sortedMag
      refine List.Pairwise.cons ?_ (ih ht)
      intro p hp
      rcases insMag_mem p hp with h2 | h2
      · rw [h2]
        exact cmpB_gt_iff.mp hcmp
      · exact hq p h2


theorem qadd_zero_right (a : Rat) : qadd a 0 = a := by rw [qadd_eq, add_zero]

/-- Insertion preserves the no-zero-exponent invariant. -/
theorem insMag_nonzero {b : MBasis} {e : Rat} {m : Mag} (h : ∀ p ∈ m, p.2 ≠ 0) :
    ∀ p ∈ insMag b e m, p.2 ≠ 0 := by
  induction m with
  | nil =>
    intro p hp
    simp only [insMag] at hp
    split at hp
    · cases hp
    · rw [List.mem_singleton.mp hp]
      assumption
  | cons q t ih =>
    obtain ⟨c, f⟩ := q
    intro p hp
    simp only [insMag] at hp
    split at hp
    · split at hp
      · exact h p hp
      · rcases List.mem_cons.mp hp with h2 | h2
        · rw [h2]
          assumption
        · exact h p h2
    · split at hp
      · exact h p (List.mem_cons_of_mem _ hp)
      · rcases List.mem_cons.mp hp with h2 | h2
        · rw [h2]
          assumption
        · exact h p (List.mem_cons_of_mem _ h2)
    · rcases List.mem_cons.mp hp with h2 | h2
      · rw [h2]
        exact h (c, f) (List.mem_cons_self _ t)
      · exact ih (fun r hr => h r (List.mem_cons_of_mem _ hr)) p h2

/-- The pointwise description of insertion on a sorted magnitude. -/
theorem insMag_expOf {b : MBasis} {e : Rat} {m : Mag} (hs : sortedMag m) (x : MBasis) :
    expOf (insMag b e m) x = if x = b then qadd e (expOf m x) else expOf m x := by
  induction m with
  | nil =>
    simp only [insMag]
    split
    · rename_i he
      subst he
      by_cases hxb : x = b
      · subst hxb
        simp [expOf, qadd_zero_left]
      · simp [expOf, hxb]
    · by_cases hxb : x = b
      · subst hxb
        simp [expOf, qadd_zero_right]
      · simp [expOf, hxb, Ne.symm hxb]
  | cons q t ih =>
    obtain ⟨hq, ht⟩ := sortedMag_cons hs
    obtain ⟨c, f⟩ := q
    cases hbc : cmpB b c with
    | lt =>
      have hne : b ≠ c := fun h => by
        rw [h, cmpB_refl] at hbc
        cases hbc
      simp only [insMag, hbc]
      split
      · rename_i he
        subst he
        by_cases hxb : x = b
        · subst hxb
          simp [qadd_zero_left]
        · simp [hxb]
      · by_cases hxb : x = b
        · subst hxb
          have h1 : expOf t x = 0 :=
            expOf_eq_zero_of_lt (fun p hp => cmpB_lt_trans hbc (hq p hp))
          simp [expOf, Ne.symm hne, h1, qadd_zero_right]
        · simp [expOf, hxb, Ne.symm hxb]
    | eq =>
      have hbc2 : b = c := (cmpB_eq_iff b c).mp hbc
      subst hbc2
      have hct : expOf t b = 0 := expOf_eq_zero_of_lt (fun p hp => hq p hp)
      simp only [insMag, hbc]
      split
      · rename_i hz
        by_cases hxb : x = b
        · subst hxb
          simp [expOf, hct, hz]
        · simp [expOf, hxb, Ne.symm hxb]
      · by_cases hxb : x = b
        · subst hxb
          simp [expOf]
        · simp [expOf, hxb, Ne.symm hxb]
    | gt =>
      have hcb : c ≠ b := fun h => by
        rw [h, cmpB_refl] at hbc
        cases hbc
      simp only [insMag, hbc, expOf]
      rw [ih ht]
      by_cases hxb : x = b
      · subst hxb
        simp [hcb]
      · simp [hxb]

/-- Multiplication preserves sortedness (of the right operand target). -/
theorem magMul_sorted {a b : Mag} (hb : sortedMag b) : sortedMag (magMul a b) := by
  induction a with
  | nil => exact hb
  | cons q t ih =>
    obtain ⟨c, f⟩ := q
    exact insMag_sorted ih

theorem magMul_nonzero {a b : Mag} (hb : ∀ p ∈ b, p.2 ≠ 0) :
    ∀ p ∈ magMul a b, p.2 ≠ 0 := by
  induction a with
  | nil => exact hb
  | cons q t ih =>
    obtain ⟨c, f⟩ := q
    exact insMag_nonzero ih

theorem wfMag_magMul {a b : Mag} (hb : wfMag b) : wfMag (magMul a b) :=
  ⟨magMul_sorted hb.1, magMul_nonzero hb.2⟩

/-- Pointwise description of magnitude multiplication: exponents add. -/
theorem magMul_expOf {a b : Mag} (ha : sortedMag a) (hb : sortedMag b) (x : MBasis) :
    expOf (magMul a b) x = expOf a x + expOf b x := by
  induction a with
  | nil => simp [magMul, expOf]
  | cons q t ih =>
    obtain ⟨hq, ht⟩ := sortedMag_cons ha
    obtain ⟨c, e⟩ := q
    simp only [magMul]
    rw [insMag_expOf (magMul_sorted hb), ih ht]
    simp only [expOf]
    by_cases hxc : x = c
    · rw [if_pos hxc, if_pos hxc.symm, qadd_eq]
      have h0 : expOf t x = 0 := by
        rw [hxc]
        exact expOf_eq_zero_of_lt (fun p hp => hq p hp)
      rw [h0]
      ring
    · rw [if_neg hxc, if_neg (fun hc : c = x => hxc hc.symm)]

theorem magInv_expOf (m : Mag) (x : MBasis) : expOf (magInv m) x = -(expOf m x) := by
  induction m with
  | nil => simp [magInv, expOf]
  | cons q t ih =>
    obtain ⟨c, e⟩ := q
    simp only [magInv, List.map, expOf] at *
    by_cases hcx : c = x
    · rw [if_pos hcx, if_pos hcx, qneg_eq]
    · rw [if_neg hcx, if_neg hcx, ih]

theorem magInv_sorted {m : Mag} (h : sortedMag m) : sortedMag (magInv m) := by
  unfold sortedMag magInv at *
  exact (List.pairwise_map).mpr h

theorem wfMag_magInv {m : Mag} (h : wfMag m) : wfMag (magInv m) := by
  refine ⟨magInv_sorted h.1, ?_⟩
  intro p hp
  unfold magInv at hp
  rcases List.mem_map.mp hp with ⟨q, hq, he⟩
  rw [← he]
  simp only [qneg_eq]
  simpa using h.2 q hq

theorem wfMag_magDiv {a b : Mag} (ha : wfMag a) (hb : wfMag b) : wfMag (magDiv a b) := by
  unfold magDiv
  exact wfMag_magMul (wfMag_magInv hb)

theorem magDiv_expOf {a b : Mag} (ha : sortedMag a) (hb : sortedMag b) (x : MBasis) :
    expOf (magDiv a b) x = expOf a x - expOf b x := by
  unfold magDiv
  rw [magMul_expOf ha (magInv_sorted hb), magInv_expOf]
  ring

theorem magPow_expOf (m : Mag) (q : Rat) (x : MBasis) :
    expOf (magPow m q) x = expOf m x * q := by
  unfold magPow
  split
  · rename_i h
    rw [h]
    simp [expOf]
  · induction m with
    | nil => simp [expOf]
    | cons p t ih =>
      obtain ⟨c, e⟩ := p
      simp only [List.map, expOf]
      by_cases hcx : c = x
      · rw [if_pos hcx, if_pos hcx, qmul_eq]
      · rw [if_neg hcx, if_neg hcx, ih]

theorem wfMag_magPow {m : Mag} {q : Rat} (h : wfMag m) : wfMag (magPow m q) := by
  unfold magPow
  split
  · exact ⟨List.Pairwise.nil, by simp⟩
  · rename_i hq
    constructor
    · unfold sortedMag at *
      exact (List.pairwise_map).mpr h.1
    · intro p hp
      rcases List.mem_map.mp hp with ⟨r, hr, he⟩
      rw [← he]
      simp only [qmul_eq]
      exact mul_ne_zero (h.2 r hr) hq

/-- Extensionality for well-formed magnitudes: equal exponent mappings mean
equal representations. -/
theorem magExt {a : Mag} (ha : wfMag a) : ∀ {b : Mag}, wfMag b →
    (∀ x, expOf a x = expOf b x) → a = b := by
  induction a with
  | nil =>
    intro b hb h
    cases b with
    | nil => rfl
    | cons q s =>
      exfalso
      have := h q.1
      simp only [expOf, if_pos rfl] at this
      exact hb.2 q (List.mem_cons_self _ s) this.symm
  | cons p t ih =>
    intro b hb h
    obtain ⟨c, e⟩ := p
    cases b with
    | nil =>
      exfalso
      have := h c
      simp only [expOf, if_pos rfl] at this
      exact (ha.2 (c, e) (List.mem_cons_self _ t)) this
    | cons q s =>
      obtain ⟨d, f⟩ := q
      obtain ⟨hqt, ht⟩ := sortedMag_cons ha.1
      obtain ⟨hqs, hs⟩ := sortedMag_cons hb.1
      have hta : wfMag t := ⟨ht, fun r hr => ha.2 r (List.mem_cons_of_mem _ hr)⟩
      have hsb : wfMag s := ⟨hs, fun r hr => hb.2 r (List.mem_cons_of_mem _ hr)⟩
      cases hcd : cmpB c d with
      | lt =>
        exfalso
        have hc := h c
        have hne : d ≠ c := by
          intro hd
          rw [hd, cmpB_refl] at hcd
          cases hcd
        simp only [expOf, if_pos rfl, if_neg hne] at hc
        have h0 : expOf s c = 0 :=
          expOf_eq_zero_of_lt (fun r hr => cmpB_lt_trans hcd (hqs r hr))
        rw [h0] at hc
        exact (ha.2 (c, e) (List.mem_cons_self _ t)) hc
      | gt =>
        exfalso
        have hd := h d
        have hdc : cmpB d c = .lt := cmpB_gt_iff.mp hcd
        have hne : c ≠ d := by
          intro hcd2
          rw [hcd2, cmpB_refl] at hcd
          cases hcd
        simp only [expOf, if_pos rfl, if_neg hne] at hd
        have h0 : expOf t d = 0 :=
          expOf_eq_zero_of_lt (fun r hr => cmpB_lt_trans hdc (hqt r hr))
        rw [h0] at hd
        exact (hb.2 (d, f) (List.mem_cons_self _ s)) hd.symm
      | eq =>
        have hcd2 : c = d := (cmpB_eq_iff c d).mp hcd
        have hef : e = f := by
          have := h c
          simp only [expOf, if_pos rfl, hcd2, if_pos rfl] at this
          exact this
        have htails : ∀ x, expOf t x = expOf s x := by
          intro x
          by_cases hxc : x = c
          · rw [hxc]
            have h1 : expOf t c = 0 := expOf_eq_zero_of_lt (fun r hr => hqt r hr)
            have h2 : expOf s c = 0 := expOf_eq_zero_of_lt (fun r hr => by
              rw [hcd2]
              exact hqs r hr)
            rw [h1, h2]
          · have := h x
            simp only [expOf] at this
            rw [if_neg (fun hc : c = x => hxc hc.symm),
              if_neg (fun hd : d = x => hxc (by rw [← hd, hcd2]))] at this
            exact this
        rw [hcd2, hef, ih hta hsb htails]

/-- Lookup of a member of a sorted magnitude returns its exponent. -/
theorem expOf_mem {m : Mag} (hs : sortedMag m) {p : MBasis × Rat} (hp : p ∈ m) :
    expOf m p.1 = p.2 := by
  induction m with
  | nil => cases hp
  | cons q t ih =>
    obtain ⟨hq, ht⟩ := sortedMag_cons hs
    rcases List.mem_cons.mp hp with h | h
    · rw [h]
      simp [expOf]
    · have hlt : cmpB q.1 p.1 = .lt := hq p h
      have hne : q.1 ≠ p.1 := fun he => by
        rw [he, cmpB_refl] at hlt
        cases hlt
      simp only [expOf, if_neg hne]
      exact ih ht h

theorem wfMag_filter {m : Mag} (P : MBasis × Rat → Bool) (h : wfMag m) :
    wfMag (m.filter P) := by
  constructor
  · exact List.Pairwise.filter P h.1
  · intro p hp
    exact h.2 p (List.mem_of_mem_filter hp)

/-- Pointwise description of filtering a sorted magnitude, for a predicate
that depends only on the key and exponent. -/
theorem expOf_filter {m : Mag} (hs : sortedMag m) (P : MBasis × Rat → Bool) (x : MBasis) :
    expOf (m.filter P) x = if P (x, expOf m x) = true then expOf m x else 0 := by
  induction m with
  | nil => simp [expOf]
  | cons q t ih =>
    obtain ⟨hq, ht⟩ := sortedMag_cons hs
    obtain ⟨c, f⟩ := q
    by_cases hcx : c = x
    · subst hcx
      have h0 : expOf t c = 0 := expOf_eq_zero_of_lt (fun r hr => hq r hr)
      have h1 : expOf (t.filter P) c = 0 := by
        apply expOf_eq_zero_of_lt
        intro r hr
        exact hq r (List.mem_of_mem_filter hr)
      rw [List.filter_cons]
      by_cases hP : P (c, f) = true
      · rw [if_pos hP]
        simp [expOf, hP]
      · rw [if_neg hP]
        simp only [expOf, if_pos rfl]
        rw [h1, if_neg (by simpa using hP)]
    · rw [List.filter_cons]
      have hgoal : expOf (List.filter P t) x =
          if P (x, expOf ((c, f) :: t) x) = true then expOf ((c, f) :: t) x else 0 := by
        rw [ih ht]
        simp only [expOf, if_neg hcx]
      by_cases hP : P (c, f) = true
      · rw [if_pos hP]
        simp only [expOf, if_neg hcx]
        simpa only [expOf, if_neg hcx] using hgoal
      · rw [if_neg hP]
        exact hgoal

/-- The positive-exponent part of a magnitude. -/
def magPosPart (m : Mag) : Mag := m.filter (fun p => decide (0 < p.2))

/-- A common magnitude of two magnitudes: pointwise minimum of the exponent
mappings (the algebraic analogue of gcd, generalized to rational
exponents).  Modelled from the spec (§3, §4.1): it divides both inputs with
a non-negative-exponent remainder on each side. -/
def commonMag (a b : Mag) : Mag := magDiv a (magPosPart (magDiv a b))

theorem expOf_posPart {m : Mag} (hs : sortedMag m) (x : MBasis) :
    expOf (magPosPart m) x = if 0 < expOf m x then expOf m x else 0 := by
  unfold magPosPart
  rw [expOf_filter hs]
  dsimp only
  by_cases h : 0 < expOf m x
  · rw [if_pos h, if_pos (by simpa using h)]
  · rw [if_neg h, if_neg (by simpa using h)]

theorem wfMag_posPart {m : Mag} (h : wfMag m) : wfMag (magPosPart m) :=
  wfMag_filter _ h

theorem wfMag_commonMag {a b : Mag} (ha : wfMag a) (hb : wfMag b) :
    wfMag (commonMag a b) :=
  wfMag_magDiv ha (wfMag_posPart (wfMag_magDiv ha hb))

/-- The common magnitude takes the pointwise minimum of the exponents. -/
theorem expOf_commonMag {a b : Mag} (ha : wfMag a) (hb : wfMag b) (x : MBasis) :
    expOf (commonMag a b) x = min (expOf a x) (expOf b x) := by
  unfold commonMag
  rw [magDiv_expOf ha.1 (wfMag_posPart (wfMag_magDiv ha hb)).1,
    expOf_posPart (wfMag_magDiv ha hb).1, magDiv_expOf ha.1 hb.1]
  rcases le_or_lt (expOf a x) (expOf b x) with h | h
  · rw [if_neg (by linarith), min_eq_left h]
    ring
  · rw [if_pos (by linarith), min_eq_right (le_of_lt h)]
    ring

/-- Multiplying the quotient of two well-formed magnitudes back by the
divisor recovers the dividend. -/
theorem magDiv_magMul_cancel {a b : Mag} (ha : wfMag a) (hb : wfMag b) :
    magMul (magDiv a b) b = a := by
  apply magExt (wfMag_magMul hb) ha
  intro x
  rw [magMul_expOf (wfMag_magDiv ha hb).1 hb.1, magDiv_expOf ha.1 hb.1]
  ring

/-- The quotient of two well-formed magnitudes is the identity exactly when
they are equal. -/
theorem magDiv_eq_one_iff {a b : Mag} (ha : wfMag a) (hb : wfMag b) :
    magDiv a b = magOne ↔ a = b := by
  constructor
  · intro h
    apply magExt ha hb
    intro x
    have := congrArg (fun m => expOf m x) h
    simp only at this
    rw [magDiv_expOf ha.1 hb.1] at this
    have h0 : expOf magOne x = 0 := rfl
    rw [h0] at this
    linarith
  · intro h
    subst h
    apply magExt (wfMag_magDiv ha ha) ⟨List.Pairwise.nil, by simp⟩
    intro x
    rw [magDiv_expOf ha.1 ha.1]
    simp [expOf]

theorem magPow_one {m : Mag} : magPow m 1 = m := by
  unfold magPow
  rw [if_neg one_ne_zero]
  have : (fun p : MBasis × Rat => (p.1, qmul p.2 1)) = id := by
    funext p
    simp [qmul_eq]
  rw [this, List.map_id]

/-- Squaring a well-formed magnitude is the same as multiplying it by
itself. -/
theorem magPow_two {m : Mag} (h : wfMag m) : magPow m 2 = magMul m m := by
  apply magExt (wfMag_magPow h) (wfMag_magMul h)
  intro x
  rw [magPow_expOf, magMul_expOf h.1 h.1]
  ring

/-- Bool test for a prime basis. -/
def isPrimB : MBasis → Bool
  | .prim _ => true
  | .tagpi => false

/-- Whether a magnitude denotes a (positive) integer: every entry is a
prime basis raised to a non-negative integral exponent.  Modelled from the
spec (§3): the is-integral-ratio test decides whether one magnitude is a
whole multiple of another. -/
def isIntegral (m : Mag) : Bool :=
  m.all fun p => isPrimB p.1 && (p.2.den == 1) && decide (0 ≤ p.2.num)

/-- The integer-numerator part of a magnitude: entries that are primes with
positive integral exponents.  Modelled from the spec (§4.1, display
support). -/
def magNumerator (m : Mag) : Mag :=
  m.filter fun p => isPrimB p.1 && (p.2.den == 1) && decide (0 < p.2.num)

/-- The integer-denominator part of a magnitude: primes with negative
integral exponents, negated.  Modelled from the spec (§4.1). -/
def magDenominator (m : Mag) : Mag :=
  magInv (m.filter fun p => isPrimB p.1 && (p.2.den == 1) && decide (p.2.num < 0))

/-- A nonzero exponent lookup comes from an actual entry. -/
theorem expOf_ne_zero_mem {m : Mag} {x : MBasis} (h : expOf m x ≠ 0) :
    ∃ p ∈ m, p.1 = x ∧ p.2 = expOf m x := by
  induction m with
  | nil => exact absurd rfl h
  | cons q t ih =>
    obtain ⟨c, f⟩ := q
    by_cases hcx : c = x
    · subst hcx
      refine ⟨(c, f), List.mem_cons_self _ t, rfl, ?_⟩
      simp [expOf]
    · simp only [expOf, if_neg hcx] at h ⊢
      obtain ⟨p, hp, h1, h2⟩ := ih h
      exact ⟨p, List.mem_cons_of_mem _ hp, h1, h2⟩

/-- An entry-wise characterization of magnitudes that are exactly a ratio
of two integers: reconstructing the magnitude from its integer numerator and
denominator succeeds iff every entry is a prime with an integral exponent. -/
theorem magNumDen_iff {m : Mag} (h : wfMag m) :
    m = magDiv (magNumerator m) (magDenominator m) ↔
      ∀ p ∈ m, (isPrimB p.1 && (p.2.den == 1)) = true := by
  have hnum : wfMag (magNumerator m) := wfMag_filter _ h
  have hden : wfMag (magDenominator m) := wfMag_magInv (wfMag_filter _ h)
  have hpt : ∀ x, expOf (magDiv (magNumerator m) (magDenominator m)) x =
      (if (isPrimB x && ((expOf m x).den == 1) && decide (0 < (expOf m x).num)) = true
        then expOf m x else 0) +
      (if (isPrimB x && ((expOf m x).den == 1) && decide ((expOf m x).num < 0)) = true
        then expOf m x else 0) := by
    intro x
    rw [magDiv_expOf hnum.1 hden.1]
    unfold magNumerator magDenominator
    rw [expOf_filter h.1, magInv_expOf, expOf_filter h.1]
    dsimp only
    by_cases h1 : (isPrimB x && ((expOf m x).den == 1) && decide (0 < (expOf m x).num)) = true
    · rw [if_pos h1]
      by_cases h2 : (isPrimB x && ((expOf m x).den == 1) && decide ((expOf m x).num < 0)) = true
      · exfalso
        simp only [Bool.and_eq_true, decide_eq_true_eq] at h1 h2
        omega
      · rw [if_neg h2]
        ring
    · rw [if_neg h1]
      by_cases h2 : (isPrimB x && ((expOf m x).den == 1) && decide ((expOf m x).num < 0)) = true
      · rw [if_pos h2]
        ring
      · rw [if_neg h2]
        ring
  constructor
  · intro he p hp
    have hx := hpt p.1
    rw [← he] at hx
    have hv : expOf m p.1 = p.2 := expOf_mem h.1 hp
    rw [hv] at hx
    have hnz : p.2 ≠ 0 := h.2 p hp
    by_contra hc
    have hb1 : (isPrimB p.1 && (p.2.den == 1) && decide (0 < p.2.num)) = false := by
      by_contra hb
      simp only [Bool.not_eq_false, Bool.and_eq_true] at hb
      exact hc (by rw [hb.1.1, hb.1.2]; rfl)
    have hb2 : (isPrimB p.1 && (p.2.den == 1) && decide (p.2.num < 0)) = false := by
      by_contra hb
      simp only [Bool.not_eq_false, Bool.and_eq_true] at hb
      exact hc (by rw [hb.1.1, hb.1.2]; rfl)
    rw [hb1, hb2] at hx
    simp only [Bool.false_eq_true, if_false, add_zero] at hx
    exact hnz hx
  · intro hall
    apply magExt h (wfMag_magDiv hnum hden)
    intro x
    rw [hpt x]
    by_cases hmem : expOf m x = 0
    · rw [hmem]
      simp
    · obtain ⟨p, hp, hpx, hpv⟩ := expOf_ne_zero_mem hmem
      have hx : (isPrimB x && ((expOf m x).den == 1)) = true := by
        rw [← hpv, ← hpx]
        exact hall p hp
      simp only [Bool.and_eq_true] at hx
      have hnz : (expOf m x).num ≠ 0 := by
        intro h0
        exact hmem (by rwa [Rat.num_eq_zero] at h0)
      rcases lt_or_gt_of_ne hnz with hn | hn
      · rw [if_neg (by simp only [Bool.and_eq_true, decide_eq_true_eq]; intro hcon; omega),
          if_pos (by simp only [Bool.and_eq_true, decide_eq_true_eq]; exact ⟨hx, hn⟩)]
        ring
      · rw [if_pos (by simp only [Bool.and_eq_true, decide_eq_true_eq]; exact ⟨hx, hn⟩),
          if_neg (by simp only [Bool.and_eq_true, decide_eq_true_eq]; intro hcon; omega)]
        ring

/-- Integer floor of a rational (kernel-evaluable). -/
def qfloor (q : Rat) : Int := q.num.fdiv q.den

/-- Smaller of two integers (kernel-evaluable helper). -/
def imin (a b : Int) : Int := if a ≤ b then a else b

/-- The largest integer power of ten that can be factored out of a
magnitude for display: the floor of the smaller of the exponents of the
primes 2 and 5.  Modelled from the spec (§4.1: extract_power_of_ten is used
purely for display). -/
def extractPow10 (m : Mag) : Int :=
  imin (qfloor (expOf m (.prim 2))) (qfloor (expOf m (.prim 5)))

/-- The magnitude of the number 10^k. -/
def pow10 (k : Int) : Mag :=
  if k = 0 then [] else [(.prim 2, mkRat k 1), (.prim 5, mkRat k 1)]

theorem wfMag_pow10 (k : Int) : wfMag (pow10 k) := by
  unfold pow10
  split
  · exact ⟨List.Pairwise.nil, by simp⟩
  · rename_i hk
    constructor
    · unfold sortedMag
      refine List.Pairwise.cons ?_ (List.pairwise_singleton _ _)
      intro p hp
      rw [List.mem_singleton.mp hp]
      rfl
    · intro p hp
      have hq : mkRat k 1 ≠ 0 := by
        rw [Rat.mkRat_one]
        simpa using hk
      rcases List.mem_cons.mp hp with h | h
      · rw [h]
        exact hq
      · rw [List.mem_singleton.mp h]
        exact hq

/-! ### Unit expressions

The unit expression model translated from `src/core/include/units/unit.h`:
`base i` is a base unit `named_unit<Symbol>` (identified by a numeral
standing for its unique symbol/type), `named i u` is `named_unit<Symbol, U>`
(a named unit defined in terms of another unit, which also covers
`prefixed_unit` via a scaled definition), `scaled m u` is
`scaled_unit<M, U>`, and `derived n d` is `derived_unit<...>` holding the
numerator factor list and the denominator (`per<...>`) factor list.  A
factor carries a rational exponent; exponent one stands for a bare factor
and any other exponent for a `power<F, Num, Den>` wrapper (the library's
`power_or_T` guarantees an exponent-one wrapper never appears). -/

mutual
inductive UnitE where
  | base : Nat → UnitE
  | named : Nat → UnitE → UnitE
  | scaled : Mag → UnitE → UnitE
  | derived : FactorList → FactorList → UnitE
inductive FactorList where
  | fnil : FactorList
  | fcons : UnitE → Rat → FactorList → FactorList
end

/-- Total comparison of naturals. -/
def cmpN (a b : Nat) : Ordering := if a < b then .lt else if a = b then .eq else .gt

theorem cmpN_eq_iff (a b : Nat) : cmpN a b = .eq ↔ a = b := by
  unfold cmpN
  split_ifs with h1 h2 <;> simp_all <;> omega

theorem cmpN_lt_iff {a b : Nat} : cmpN a b = .lt ↔ a < b := by
  unfold cmpN
  split_ifs with h1 h2 <;> simp_all

theorem cmpN_lt_trans {a b c : Nat} (h1 : cmpN a b = .lt) (h2 : cmpN b c = .lt) :
    cmpN a c = .lt := by
  rw [cmpN_lt_iff] at *
  omega

theorem cmpN_gt_iff {a b : Nat} : cmpN a b = .gt ↔ cmpN b a = .lt := by
  rw [cmpN_lt_iff]
  unfold cmpN
  split_ifs with h1 h2 <;> simp_all <;> omega

/-- Injective encoding of integers into naturals. -/
def ienc : Int → Nat
  | .ofNat n => 2 * n
  | .negSucc n => 2 * n + 1

theorem ienc_inj {a b : Int} (h : ienc a = ienc b) : a = b := by
  cases a with
  | ofNat n =>
    cases b with
    | ofNat m =>
      simp only [ienc] at h
      have hnm : n = m := by omega
      rw [hnm]
    | negSucc m =>
      simp only [ienc] at h
      omega
  | negSucc n =>
    cases b with
    | ofNat m =>
      simp only [ienc] at h
      omega
    | negSucc m =>
      simp only [ienc] at h
      have hnm : n = m := by omega
      rw [hnm]

/-- Injective encoding of rationals into naturals. -/
def qenc (q : Rat) : Nat := Nat.pair (ienc q.num) q.den

theorem qenc_inj {a b : Rat} (h : qenc a = qenc b) : a = b := by
  unfold qenc at h
  rw [Nat.pair_eq_pair] at h
  exact Rat.ext (ienc_inj h.1) h.2

/-- Injective encoding of basis identifiers. -/
def benc : MBasis → Nat
  | .prim p => 2 * p
  | .tagpi => 1

theorem benc_inj {a b : MBasis} (h : benc a = benc b) : a = b := by
  cases a <;> cases b <;> simp [benc] at h ⊢ <;> omega

/-- Injective encoding of magnitude entries. -/
def penc (p : MBasis × Rat) : Nat := Nat.pair (benc p.1) (qenc p.2)

theorem penc_inj {a b : MBasis × Rat} (h : penc a = penc b) : a = b := by
  unfold penc at h
  rw [Nat.pair_eq_pair] at h
  exact Prod.ext (benc_inj h.1) (qenc_inj h.2)

/-- Injective encoding of magnitudes. -/
def menc : Mag → Nat
  | [] => 0
  | p :: t => Nat.pair (penc p) (menc t) + 1

theorem menc_inj {a b : Mag} : menc a = menc b → a = b := by
  induction a generalizing b with
  | nil =>
    intro h
    cases b with
    | nil => rfl
    | cons q s => simp [menc] at h
  | cons p t ih =>
    intro h
    cases b with
    | nil => simp [menc] at h
    | cons q s =>
      simp only [menc, Nat.add_right_cancel_iff, Nat.pair_eq_pair] at h
      rw [penc_inj h.1, ih h.2]

mutual
/-- Injective encoding of unit expressions into naturals; the induced order
is the model of the library's total `detail::unit_less` ordering on unit
types (the C++ source orders by type name; the spec only requires a
deterministic total order on atomic units, so any injective key works). -/
def uenc : UnitE → Nat
  | .base i => Nat.pair 0 i
  | .named i u => Nat.pair 1 (Nat.pair i (uenc u))
  | .scaled m u => Nat.pair 2 (Nat.pair (menc m) (uenc u))
  | .derived n d => Nat.pair 3 (Nat.pair (flenc n) (flenc d))
/-- Injective encoding of factor lists. -/
def flenc : FactorList → Nat
  | .fnil => 0
  | .fcons u e t => Nat.pair (uenc u) (Nat.pair (qenc e) (flenc t)) + 1
end

mutual
def uenc_inj : (a b : UnitE) → uenc a = uenc b → a = b
  | .base i, .base j, h => by
    simp only [uenc, Nat.pair_eq_pair] at h
    rw [h.2]
  | .base _, .named _ _, h => by simp [uenc, Nat.pair_eq_pair] at h
  | .base _, .scaled _ _, h => by simp [uenc, Nat.pair_eq_pair] at h
  | .base _, .derived _ _, h => by simp [uenc, Nat.pair_eq_pair] at h
  | .named _ _, .base _, h => by simp [uenc, Nat.pair_eq_pair] at h
  | .named i u, .named j v, h => by
    simp only [uenc, Nat.pair_eq_pair] at h
    rw [h.2.1, uenc_inj u v h.2.2]
  | .named _ _, .scaled _ _, h => by simp [uenc, Nat.pair_eq_pair] at h
  | .named _ _, .derived _ _, h => by simp [uenc, Nat.pair_eq_pair] at h
  | .scaled _ _, .base _, h => by simp [uenc, Nat.pair_eq_pair] at h
  | .scaled _ _, .named _ _, h => by simp [uenc, Nat.pair_eq_pair] at h
  | .scaled m u, .scaled n v, h => by
    simp only [uenc, Nat.pair_eq_pair] at h
    rw [menc_inj h.2.1, uenc_inj u v h.2.2]
  | .scaled _ _, .derived _ _, h => by simp [uenc, Nat.pair_eq_pair] at h
  | .derived _ _, .base _, h => by simp [uenc, Nat.pair_eq_pair] at h
  | .derived _ _, .named _ _, h => by simp [uenc, Nat.pair_eq_pair] at h
  | .derived _ _, .scaled _ _, h => by simp [uenc, Nat.pair_eq_pair] at h
  | .derived n d, .derived n2 d2, h => by
    simp only [uenc, Nat.pair_eq_pair] at h
    rw [flenc_inj n n2 h.2.1, flenc_inj d d2 h.2.2]
def flenc_inj : (a b : FactorList) → flenc a = flenc b → a = b
  | .fnil, .fnil, _ => rfl
  | .fnil, .fcons _ _ _, h => by simp [flenc] at h
  | .fcons _ _ _, .fnil, h => by simp [flenc] at h
  | .fcons u e t, .fcons v f s, h => by
    simp only [flenc, Nat.add_right_cancel_iff, Nat.pair_eq_pair] at h
    rw [uenc_inj u v h.1, qenc_inj h.2.1, flenc_inj t s h.2.2]
end

/-- The total order on unit expressions used for sorting factor lists,
via the injective encoding. -/
def cmpU (a b : UnitE) : Ordering := cmpN (uenc a) (uenc b)

theorem cmpU_eq_iff (a b : UnitE) : cmpU a b = .eq ↔ a = b := by
  unfold cmpU
  rw [cmpN_eq_iff]
  constructor
  · exact uenc_inj a b
  · intro h
    rw [h]

theorem cmpU_refl (a : UnitE) : cmpU a a = .eq := (cmpU_eq_iff a a).mpr rfl

theorem cmpU_lt_trans {a b c : UnitE} (h1 : cmpU a b = .lt) (h2 : cmpU b c = .lt) :
    cmpU a c = .lt := cmpN_lt_trans h1 h2

theorem cmpU_gt_iff {a b : UnitE} : cmpU a b = .gt ↔ cmpU b a = .lt := cmpN_gt_iff

instance : DecidableEq UnitE := fun a b => decidable_of_iff (cmpU a b = .eq) (cmpU_eq_iff a b)

instance : DecidableEq FactorList := fun a b =>
  decidable_of_iff (flenc a = flenc b) ⟨flenc_inj a b, fun h => by rw [h]⟩

/-! ### Term lists

The numerator/denominator factor lists of a `derived_unit` are normalized
by the expression-template machinery of the repository
(`units/bits/expression_template.h`, not among the provided sources).
All operations in this section are modelled from the spec (§3, §4.2):
factors of the same atomic unit are merged by adding exponents, zero
exponents are dropped, and lists are kept sorted by the total order on
atomic units. -/

/-- Working lists of (atomic unit, signed rational exponent) terms. -/
abbrev TList := List (UnitE × Rat)

/-- Insert a term into a term list, merging exponents of an existing entry
for the same atom and dropping entries whose exponent becomes zero.
Modelled from the spec (§3). -/
def insT (b : UnitE) (e : Rat) : TList → TList
  | [] => if e = 0 then [] else [(b, e)]
  | (c, f) :: t =>
    match cmpU b c with
    | .lt => if e = 0 then (c, f) :: t else (b, e) :: (c, f) :: t
    | .eq => if qadd e f = 0 then t else (c, qadd e f) :: t
    | .gt => (c, f) :: insT b e t

/-- Merge two term lists, adding exponents of equal atoms.  Modelled from
the spec (§3). -/
def mulT : TList → TList → TList
  | [], r => r
  | (b, e) :: t, r => insT b e (mulT t r)

/-- Normalize a term list: merge duplicate atoms, drop zero exponents,
sort.  Modelled from the spec (§3). -/
def sumT (l : TList) : TList := mulT l []

/-- Negate every exponent of a term list. -/
def negT (m : TList) : TList := m.map (fun p => (p.1, qneg p.2))

/-- Multiply every exponent of a term list by a rational (the
expression-template power operation on factor lists, spec §4.2). -/
def scaleT (m : TList) (q : Rat) : TList := m.map (fun p => (p.1, qmul p.2 q))

/-- The exponent a term list assigns to an atom (zero when absent). -/
def texp (m : TList) (b : UnitE) : Rat :=
  match m with
  | [] => 0
  | (c, e) :: t => if c = b then e else texp t b

/-- Sorted atoms of a term list. -/
def sortedT (m : TList) : Prop :=
  List.Pairwise (fun p q : UnitE × Rat => cmpU p.1 q.1 = .lt) m

/-- Well-formed term list: strictly sorted atoms, no zero exponents. -/
def wfT (m : TList) : Prop := sortedT m ∧ ∀ p ∈ m, p.2 ≠ 0

instance : DecidablePred sortedT := fun m => by unfold sortedT; infer_instance

instance : DecidablePred wfT := fun m => by unfold wfT; infer_instance

theorem texp_eq_zero_of_lt {m : TList} {x : UnitE}
    (h : ∀ p ∈ m, cmpU x p.1 = .lt) : texp m x = 0 := by
  induction m with
  | nil => rfl
  | cons p t ih =>
    have hx : cmpU x p.1 = .lt := h p (by simp)
    have hne : p.1 ≠ x := by
      intro he
      rw [he, (cmpU_eq_iff x x).mpr rfl] at hx
      cases hx
    simp only [texp, if_neg hne]
    exact ih (fun q hq => h q (by simp [hq]))

theorem sortedT_cons {p : UnitE × Rat} {t : TList} (h : sortedT (p :: t)) :
    (∀ q ∈ t, cmpU p.1 q.1 = .lt) ∧ sortedT t := by
  unfold sortedT at h ⊢
  exact ⟨fun q hq => List.rel_of_pairwise_cons h hq, h.of_cons⟩

theorem insT_mem {b : UnitE} {e : Rat} {m : TList} :
    ∀ p ∈ insT b e m, p.1 = b ∨ p ∈ m := by
  induction m with
  | nil =>
    intro p hp
    simp only [insT] at hp
    split at hp
    · cases hp
    · left
      rw [List.mem_singleton.mp hp]
  | cons q t ih =>
    obtain ⟨c, f⟩ := q
    intro p hp
    simp only [insT] at hp
    split at hp
    · split at hp
      · exact Or.inr hp
      · rcases List.mem_cons.mp hp with h | h
        · left
          rw [h]
        · exact Or.inr h
    · rename_i hcmp
      split at hp
      · exact Or.inr (List.mem_cons_of_mem _ hp)
      · rcases List.mem_cons.mp hp with h | h
        · left
          rw [h]
          exact ((cmpU_eq_iff b c).mp hcmp).symm
        · exact Or.inr (List.mem_cons_of_mem _ h)
    · rcases List.mem_cons.mp hp with h | h
      · rw [h]
        exact Or.inr (List.mem_cons_self _ t)
      · rcases ih p h with h2 | h2
        · exact Or.inl h2
        · exact Or.inr (List.mem_cons_of_mem _ h2)

theorem insT_sorted {b : UnitE} {e : Rat} {m : TList} (h : sortedT m) :
    sortedT (insT b e m) := by
  induction m with
  | nil =>
    simp only [insT]
    split <;> simp [sortedT]
  | cons q t ih =>
    obtain ⟨hq, ht⟩ := sortedT_cons h
    obtain ⟨c, f⟩ := q
    simp only [insT]
    split
    · rename_i hcmp
      split
      · exact h
      · unfold sortedT
        refine List.Pairwise.cons ?_ h
        intro p hp
        rcases List.mem_cons.mp hp with h2 | h2
        · rw [h2]
          exact hcmp
        · exact cmpU_lt_trans hcmp (hq p h2)
    · rename_i hcmp
      split
      · exact ht
      · unfold sortedT
        refine List.Pairwise.cons ?_ ht
        exact hq
    · rename_i hcmp
      unfold sortedT
      refine List.Pairwise.cons ?_ (ih ht)
      intro p hp
      rcases insT_mem p hp with h2 | h2
      · rw [h2]
        exact cmpU_gt_iff.mp hcmp
      · exact hq p h2


theorem insT_nonzero {b : UnitE} {e : Rat} {m : TList} (h : ∀ p ∈ m, p.2 ≠ 0) :
    ∀ p ∈ insT b e m, p.2 ≠ 0 := by
  induction m with
  | nil =>
    intro p hp
    simp only [insT] at hp
    split at hp
    · cases hp
    · rw [List.mem_singleton.mp hp]
      assumption
  | cons q t ih =>
    obtain ⟨c, f⟩ := q
    intro p hp
    simp only [insT] at hp
    split at hp
    · split at hp
      · exact h p hp
      · rcases List.mem_cons.mp hp with h2 | h2
        · rw [h2]
          assumption
        · exact h p h2
    · split at hp
      · exact h p (List.mem_cons_of_mem _ hp)
      · rcases List.mem_cons.mp hp with h2 | h2
        · rw [h2]
          assumption
        · exact h p (List.mem_cons_of_mem _ h2)
    · rcases List.mem_cons.mp hp with h2 | h2
      · rw [h2]
        exact h (c, f) (List.mem_cons_self _ t)
      · exact ih (fun r hr => h r (List.mem_cons_of_mem _ hr)) p h2

theorem insT_texp {b : UnitE} {e : Rat} {m : TList} (hs : sortedT m) (x : UnitE) :
    texp (insT b e m) x = if x = b then qadd e (texp m x) else texp m x := by
  induction m with
  | nil =>
    simp only [insT]
    split
    · rename_i he
      subst he
      by_cases hxb : x = b
      · subst hxb
        simp [texp, qadd_zero_left]
      · simp [texp, hxb]
    · by_cases hxb : x = b
      · subst hxb
        simp [texp, qadd_zero_right]
      · simp [texp, hxb, Ne.symm hxb]
  | cons q t ih =>
    obtain ⟨hq, ht⟩ := sortedT_cons hs
    obtain ⟨c, f⟩ := q
    cases hbc : cmpU b c with
    | lt =>
      have hne : b ≠ c := fun h => by
        rw [h, cmpU_refl] at hbc
        cases hbc
      simp only [insT, hbc]
      split
      · rename_i he
        subst he
        by_cases hxb : x = b
        · subst hxb
          simp [qadd_zero_left]
        · simp [hxb]
      · by_cases hxb : x = b
        · subst hxb
          have h1 : texp t x = 0 :=
            texp_eq_zero_of_lt (fun p hp => cmpU_lt_trans hbc (hq p hp))
          simp [texp, Ne.symm hne, h1, qadd_zero_right]
        · simp [texp, hxb, Ne.symm hxb]
    | eq =>
      have hbc2 : b = c := (cmpU_eq_iff b c).mp hbc
      subst hbc2
      have hct : texp t b = 0 := texp_eq_zero_of_lt (fun p hp => hq p hp)
      simp only [insT, hbc]
      split
      · rename_i hz
        by_cases hxb : x = b
        · subst hxb
          simp [texp, hct, hz]
        · simp [texp, hxb, Ne.symm hxb]
      · by_cases hxb : x = b
        · subst hxb
          simp [texp]
        · simp [texp, hxb, Ne.symm hxb]
    | gt =>
      have hcb : c ≠ b := fun h => by
        rw [h, cmpU_refl] at hbc
        cases hbc
      simp only [insT, hbc, texp]
      rw [ih ht]
      by_cases hxb : x = b
      · subst hxb
        simp [hcb]
      · simp [hxb]

theorem mulT_sorted {a b : TList} (hb : sortedT b) : sortedT (mulT a b) := by
  induction a with
  | nil => exact hb
  | cons q t ih =>
    obtain ⟨c, f⟩ := q
    exact insT_sorted ih

theorem mulT_nonzero {a b : TList} (hb : ∀ p ∈ b, p.2 ≠ 0) :
    ∀ p ∈ mulT a b, p.2 ≠ 0 := by
  induction a with
  | nil => exact hb
  | cons q t ih =>
    obtain ⟨c, f⟩ := q
    exact insT_nonzero ih

theorem wfT_mulT {a b : TList} (hb : wfT b) : wfT (mulT a b) :=
  ⟨mulT_sorted hb.1, mulT_nonzero hb.2⟩

theorem negT_texp (m : TList) (x : UnitE) : texp (negT m) x = -(texp m x) := by
  induction m with
  | nil => simp [negT, texp]
  | cons q t ih =>
    obtain ⟨c, e⟩ := q
    simp only [negT, List.map, texp] at *
    by_cases hcx : c = x
    · rw [if_pos hcx, if_pos hcx, qneg_eq]
    · rw [if_neg hcx, if_neg hcx, ih]

theorem negT_sorted {m : TList} (h : sortedT m) : sortedT (negT m) := by
  unfold sortedT negT at *
  exact (List.pairwise_map).mpr h

theorem wfT_negT {m : TList} (h : wfT m) : wfT (negT m) := by
  refine ⟨negT_sorted h.1, ?_⟩
  intro p hp
  unfold negT at hp
  rcases List.mem_map.mp hp with ⟨q, hq, he⟩
  rw [← he]
  simp only [qneg_eq]
  simpa using h.2 q hq

theorem tExt {a : TList} (ha : wfT a) : ∀ {b : TList}, wfT b →
    (∀ x, texp a x = texp b x) → a = b := by
  induction a with
  | nil =>
    intro b hb h
    cases b with
    | nil => rfl
    | cons q s =>
      exfalso
      have := h q.1
      simp only [texp, if_pos rfl] at this
      exact hb.2 q (List.mem_cons_self _ s) this.symm
  | cons p t ih =>
    intro b hb h
    obtain ⟨c, e⟩ := p
    cases b with
    | nil =>
      exfalso
      have := h c
      simp only [texp, if_pos rfl] at this
      exact (ha.2 (c, e) (List.mem_cons_self _ t)) this
    | cons q s =>
      obtain ⟨d, f⟩ := q
      obtain ⟨hqt, ht⟩ := sortedT_cons ha.1
      obtain ⟨hqs, hs⟩ := sortedT_cons hb.1
      have hta : wfT t := ⟨ht, fun r hr => ha.2 r (List.mem_cons_of_mem _ hr)⟩
      have hsb : wfT s := ⟨hs, fun r hr => hb.2 r (List.mem_cons_of_mem _ hr)⟩
      cases hcd : cmpU c d with
      | lt =>
        exfalso
        have hc := h c
        have hne : d ≠ c := by
          intro hd
          rw [hd, cmpU_refl] at hcd
          cases hcd
        simp only [texp, if_pos rfl, if_neg hne] at hc
        have h0 : texp s c = 0 :=
          texp_eq_zero_of_lt (fun r hr => cmpU_lt_trans hcd (hqs r hr))
        rw [h0] at hc
        exact (ha.2 (c, e) (List.mem_cons_self _ t)) hc
      | gt =>
        exfalso
        have hd := h d
        have hdc : cmpU d c = .lt := cmpU_gt_iff.mp hcd
        have hne : c ≠ d := by
          intro hcd2
          rw [hcd2, cmpU_refl] at hcd
          cases hcd
        simp only [texp, if_pos rfl, if_neg hne] at hd
        have h0 : texp t d = 0 :=
          texp_eq_zero_of_lt (fun r hr => cmpU_lt_trans hdc (hqt r hr))
        rw [h0] at hd
        exact (hb.2 (d, f) (List.mem_cons_self _ s)) hd.symm
      | eq =>
        have hcd2 : c = d := (cmpU_eq_iff c d).mp hcd
        have hef : e = f := by
          have := h c
          simp only [texp, if_pos rfl, hcd2, if_pos rfl] at this
          exact this
        have htails : ∀ x, texp t x = texp s x := by
          intro x
          by_cases hxc : x = c
          · rw [hxc]
            have h1 : texp t c = 0 := texp_eq_zero_of_lt (fun r hr => hqt r hr)
            have h2 : texp s c = 0 := texp_eq_zero_of_lt (fun r hr => by
              rw [hcd2]
              exact hqs r hr)
            rw [h1, h2]
          · have := h x
            simp only [texp] at this
            rw [if_neg (fun hc : c = x => hxc hc.symm),
              if_neg (fun hd : d = x => hxc (by rw [← hd, hcd2]))] at this
            exact this
        rw [hcd2, hef, ih hta hsb htails]

theorem texp_mem {m : TList} (hs : sortedT m) {p : UnitE × Rat} (hp : p ∈ m) :
    texp m p.1 = p.2 := by
  induction m with
  | nil => cases hp
  | cons q t ih =>
    obtain ⟨hq, ht⟩ := sortedT_cons hs
    rcases List.mem_cons.mp hp with h | h
    · rw [h]
      simp [texp]
    · have hlt : cmpU q.1 p.1 = .lt := hq p h
      have hne : q.1 ≠ p.1 := fun he => by
        rw [he, cmpU_refl] at hlt
        cases hlt
      simp only [texp, if_neg hne]
      exact ih ht h

theorem wfT_filter {m : TList} (P : UnitE × Rat → Bool) (h : wfT m) :
    wfT (m.filter P) := by
  constructor
  · exact List.Pairwise.filter P h.1
  · intro p hp
    exact h.2 p (List.mem_of_mem_filter hp)

theorem texp_filter {m : TList} (hs : sortedT m) (P : UnitE × Rat → Bool) (x : UnitE) :
    texp (m.filter P) x = if P (x, texp m x) = true then texp m x else 0 := by
  induction m with
  | nil => simp [texp]
  | cons q t ih =>
    obtain ⟨hq, ht⟩ := sortedT_cons hs
    obtain ⟨c, f⟩ := q
    by_cases hcx : c = x
    · subst hcx
      have h0 : texp t c = 0 := texp_eq_zero_of_lt (fun r hr => hq r hr)
      have h1 : texp (t.filter P) c = 0 := by
        apply texp_eq_zero_of_lt
        intro r hr
        exact hq r (List.mem_of_mem_filter hr)
      rw [List.filter_cons]
      by_cases hP : P (c, f) = true
      · rw [if_pos hP]
        simp [texp, hP]
      · rw [if_neg hP]
        simp only [texp, if_pos rfl]
        rw [h1, if_neg (by simpa using hP)]
    · rw [List.filter_cons]
      have hgoal : texp (List.filter P t) x =
          if P (x, texp ((c, f) :: t) x) = true then texp ((c, f) :: t) x else 0 := by
        rw [ih ht]
        simp only [texp, if_neg hcx]
      by_cases hP : P (c, f) = true
      · rw [if_pos hP]
        simp only [texp, if_neg hcx]
        simpa only [texp, if_neg hcx] using hgoal
      · rw [if_neg hP]
        exact hgoal

theorem texp_ne_zero_mem {m : TList} {x : UnitE} (h : texp m x ≠ 0) :
    ∃ p ∈ m, p.1 = x ∧ p.2 = texp m x := by
  induction m with
  | nil => exact absurd rfl h
  | cons q t ih =>
    obtain ⟨c, f⟩ := q
    by_cases hcx : c = x
    · subst hcx
      refine ⟨(c, f), List.mem_cons_self _ t, rfl, ?_⟩
      simp [texp]
    · simp only [texp, if_neg hcx] at h ⊢
      obtain ⟨p, hp, h1, h2⟩ := ih h
      exact ⟨p, List.mem_cons_of_mem _ hp, h1, h2⟩

theorem scaleT_texp (m : TList) (q : Rat) (x : UnitE) :
    texp (scaleT m q) x = texp m x * q := by
  unfold scaleT
  induction m with
  | nil => simp [texp]
  | cons p t ih =>
    obtain ⟨c, e⟩ := p
    simp only [List.map, texp]
    by_cases hcx : c = x
    · rw [if_pos hcx, if_pos hcx, qmul_eq]
    · rw [if_neg hcx, if_neg hcx, ih]

theorem wfT_scaleT {m : TList} {q : Rat} (h : wfT m) (hq : q ≠ 0) : wfT (scaleT m q) := by
  constructor
  · unfold sortedT scaleT at *
    exact (List.pairwise_map).mpr h.1
  · intro p hp
    rcases List.mem_map.mp hp with ⟨r, hr, he⟩
    rw [← he]
    simp only [qmul_eq]
    exact mul_ne_zero (h.2 r hr) hq

/-- Signed sum of the exponents an arbitrary (possibly unsorted,
possibly duplicated) term list assigns to an atom. -/
def lexpSum (l : TList) (x : UnitE) : Rat :=
  match l with
  | [] => 0
  | (u, e) :: t => (if u = x then e else 0) + lexpSum t x

theorem lexpSum_append (l r : TList) (x : UnitE) :
    lexpSum (l ++ r) x = lexpSum l x + lexpSum r x := by
  induction l with
  | nil => simp [lexpSum]
  | cons p t ih =>
    obtain ⟨c, e⟩ := p
    simp only [List.cons_append, lexpSum, List.append_eq, ih]
    ring

/-- Pointwise description of merging an arbitrary term list into a sorted
one: exponents of equal atoms add up. -/
theorem mulT_lexp {l r : TList} (hr : sortedT r) (x : UnitE) :
    texp (mulT l r) x = lexpSum l x + texp r x := by
  induction l with
  | nil => simp [mulT, lexpSum]
  | cons p t ih =>
    obtain ⟨c, e⟩ := p
    simp only [mulT, lexpSum]
    rw [insT_texp (mulT_sorted hr), ih]
    by_cases hxc : x = c
    · rw [if_pos hxc, if_pos (by rw [hxc]), qadd_eq]
      ring
    · rw [if_neg hxc, if_neg (fun h : c = x => hxc h.symm)]
      ring

theorem sumT_texp (l : TList) (x : UnitE) : texp (sumT l) x = lexpSum l x := by
  unfold sumT
  rw [mulT_lexp (List.Pairwise.nil)]
  simp [texp]

theorem sumT_sorted (l : TList) : sortedT (sumT l) := mulT_sorted List.Pairwise.nil

theorem sumT_nonzero (l : TList) : ∀ p ∈ sumT l, p.2 ≠ 0 := by
  apply mulT_nonzero
  intro p hp
  cases hp

theorem wfT_sumT (l : TList) : wfT (sumT l) := ⟨sumT_sorted l, sumT_nonzero l⟩

/-- The positive (numerator) part of a normalized signed term list. -/
def splitPos (l : TList) : TList := l.filter (fun p => decide (0 < p.2))

/-- The denominator part of a normalized signed term list: negative terms,
negated to positive exponents (spec §3: denominator factors are stored with
their positive magnitude). -/
def splitNeg (l : TList) : TList := negT (l.filter (fun p => decide (p.2 < 0)))

theorem splitPos_texp {l : TList} (hs : sortedT l) (x : UnitE) :
    texp (splitPos l) x = if 0 < texp l x then texp l x else 0 := by
  unfold splitPos
  rw [texp_filter hs]
  dsimp only
  by_cases h : 0 < texp l x
  · rw [if_pos h, if_pos (by simpa using h)]
  · rw [if_neg h, if_neg (by simpa using h)]

theorem splitNeg_texp {l : TList} (hs : sortedT l) (x : UnitE) :
    texp (splitNeg l) x = if texp l x < 0 then -(texp l x) else 0 := by
  unfold splitNeg
  rw [negT_texp, texp_filter hs]
  dsimp only
  by_cases h : texp l x < 0
  · rw [if_pos h, if_pos (by simpa using h)]
  · rw [if_neg h, if_neg (by simpa using h)]
    exact neg_zero

theorem wfT_splitPos {l : TList} (h : wfT l) : wfT (splitPos l) := wfT_filter _ h

theorem wfT_splitNeg {l : TList} (h : wfT l) : wfT (splitNeg l) :=
  wfT_negT (wfT_filter _ h)

/-! ### Unit operations

Translated from `src/core/include/units/unit.h`. -/

/-- The dimensionless unit `one` (`derived_unit<>`). -/
def oneU : UnitE := .derived .fnil .fnil

/-- Conversions between factor lists and working term lists. -/
def toL : FactorList → TList
  | .fnil => []
  | .fcons u e t => (u, e) :: toL t

def ofL : TList → FactorList
  | [] => .fnil
  | (u, e) :: t => .fcons u e (ofL t)

theorem toL_ofL (l : TList) : toL (ofL l) = l := by
  induction l with
  | nil => rfl
  | cons p t ih =>
    obtain ⟨u, e⟩ := p
    simp [toL, ofL, ih]

theorem ofL_toL : ∀ l : FactorList, ofL (toL l) = l
  | .fnil => rfl
  | .fcons u e t => by
    simp only [toL, ofL]
    rw [ofL_toL t]

/-- The signed term decomposition of a unit operand as consumed by the
expression-template operations: a derived unit contributes its numerator
factors positively and its denominator (`per<...>`) factors negatively;
any other unit is a single atomic factor with exponent one.  Modelled from
the spec (§3, §4.2). -/
def toTerms : UnitE → TList
  | .derived n d => toL n ++ negT (toL d)
  | u => [(u, 1)]

/-- Rebuild a derived unit from normalized numerator/denominator lists,
collapsing to the bare unit when the result is exactly one atomic factor
with exponent one (the expression templates never keep such a wrapper, cf.
`is_of_type<one * second, second>` in unit.h).  Modelled from the spec
(§3, §4.2). -/
def mk2 (n d : TList) : UnitE :=
  match n, d with
  | [(u, e)], [] => if e = 1 then u else .derived (.fcons u e .fnil) .fnil
  | n, d => .derived (ofL n) (ofL d)

/-- Normalization pipeline shared by the expression-template operations:
merge and sort the signed terms, then split into the numerator and
denominator groups.  Modelled from the spec (§3). -/
def normTerms (l : TList) : TList × TList := (splitPos (sumT l), splitNeg (sumT l))

/-- `detail::expr_multiply` (modelled from the spec §3, §4.2). -/
def exprMultiply (l r : UnitE) : UnitE :=
  mk2 (normTerms (toTerms l ++ toTerms r)).1 (normTerms (toTerms l ++ toTerms r)).2

/-- `detail::expr_divide` (modelled from the spec §3, §4.2). -/
def exprDivide (l r : UnitE) : UnitE :=
  mk2 (normTerms (toTerms l ++ negT (toTerms r))).1
    (normTerms (toTerms l ++ negT (toTerms r))).2

/-- `detail::expr_invert`: swap numerator and denominator of a derived
unit; any other unit becomes `derived_unit<one, per<U>>`.  Modelled from
the spec (§4.2). -/
def exprInvert : UnitE → UnitE
  | .derived n d => mk2 (toL d) (toL n)
  | u => .derived .fnil (.fcons u 1 .fnil)

/-- `operator*(M, U)` from unit.h: multiplication by the identity magnitude
returns the same unit, otherwise a `scaled_unit` is returned. -/
def smul (m : Mag) (u : UnitE) : UnitE := if m = magOne then u else .scaled m u

/-- Helper for `opMul` when the left operand is not a scaled unit; it
unwraps any scaled units on the right, mirroring the right-scaled case of
`operator*(Lhs, Rhs)` in unit.h. -/
def opMulNS (l : UnitE) : UnitE → UnitE
  | .scaled n v => smul n (opMulNS l v)
  | r => exprMultiply l r

/-- `operator*(Lhs, Rhs)` from unit.h: `scaled_unit` operands have
priority; their magnitudes are combined outside and only the reference
units are passed on to the derived-unit expression. -/
def opMul : UnitE → UnitE → UnitE
  | .scaled m u, .scaled n v => smul (magMul m n) (opMul u v)
  | .scaled m u, r => smul m (opMul u r)
  | l, r => opMulNS l r

/-- Helper for `opDiv` when the left operand is not a scaled unit.  Note:
the source multiplies by the right operand's magnitude in this case
(`return Rhs::mag * (lhs / Rhs::reference_unit)`, unit.h line 440), and the
model mirrors that faithfully. -/
def opDivNS (l : UnitE) : UnitE → UnitE
  | .scaled n v => smul n (opDivNS l v)
  | r => exprDivide l r

/-- `operator/(Lhs, Rhs)` from unit.h. -/
def opDiv : UnitE → UnitE → UnitE
  | .scaled m u, .scaled n v => smul (magDiv m n) (opDiv u v)
  | .scaled m u, r => smul m (opDiv u r)
  | l, r => opDivNS l r

/-- `operator/(int, U)` from unit.h: the integer numerator is required to
be exactly 1 by the `gsl_Expects(value == 1)` contract; under the
precondition the result is the inverted expression, and any other value is
a contract violation (modelled as `none`). -/
def opIntDiv (value : Int) (u : UnitE) : Option UnitE :=
  if value = 1 then some (exprInvert u) else none

/-- `pow<Num, Den>(U)` from unit.h: a unit with its own symbol is wrapped
in `derived_unit<power<U, Num, Den>>`; a scaled unit raises its magnitude
and recurses into the reference unit; a derived unit distributes the
exponent over its factors (`detail::expr_pow`). -/
def opPow (num : Int) (den : Nat) : UnitE → UnitE
  | .base i => .derived (.fcons (.base i) (mkRat num den) .fnil) .fnil
  | .named i v => .derived (.fcons (.named i v) (mkRat num den) .fnil) .fnil
  | .scaled m v => .scaled (magPow m (mkRat num den)) (opPow num den v)
  | .derived n d =>
    mk2 (scaleT (toL n) (mkRat num den)) (scaleT (toL d) (mkRat num den))

/-- The canonical representation of a unit: accumulated magnitude and a
reference unit over base units only (`detail::canonical_unit`). -/
structure Canon where
  cmag : Mag
  cref : UnitE
deriving DecidableEq

mutual
/-- `detail::get_canonical_unit_impl` from unit.h, by cases on the unit
structure: a base unit is its own reference with identity magnitude; a
named unit canonicalizes its definition; a scaled unit folds its magnitude
into the canonical magnitude of the reference unit; a derived unit with a
denominator canonicalizes the two sides separately and divides, and one
without folds `(one * ...)` and `(mag<1> * ...)` over its factors. -/
def canon : UnitE → Canon
  | .base i => ⟨magOne, .base i⟩
  | .named _ u => canon u
  | .scaled m u => ⟨magMul m (canon u).cmag, (canon u).cref⟩
  | .derived n d =>
    match d with
    | .fnil => canonList magOne oneU n
    | .fcons v f s =>
      ⟨magDiv (canonList magOne oneU n).cmag (canonList magOne oneU (.fcons v f s)).cmag,
        opDiv (canonList magOne oneU n).cref (canonList magOne oneU (.fcons v f s)).cref⟩
/-- The left fold `(mag<1> * ... * mags)` and `(one * ... * refs)` over the
factors of a derived unit in `get_canonical_unit_impl`; a bare factor
(exponent one) canonicalizes through the unit overloads, a powered factor
through the `power<F, Num, Den>` overload, which raises the magnitude to
the exponent and wraps the reference unit in
`derived_unit<power_or_T<Ref, exponent>>`. -/
def canonList (am : Mag) (ar : UnitE) : FactorList → Canon
  | .fnil => ⟨am, ar⟩
  | .fcons u e t =>
    canonList
      (magMul am (if e = 1 then canon u else
        ⟨magPow (canon u).cmag e, .derived (.fcons (canon u).cref e .fnil) .fnil⟩).cmag)
      (opMul ar (if e = 1 then canon u else
        ⟨magPow (canon u).cmag e, .derived (.fcons (canon u).cref e .fnil) .fnil⟩).cref)
      t
end

/-- The canonicalization of a single factor of a derived unit: the bare
factor goes through the unit overloads of `get_canonical_unit_impl`, a
powered factor through the `power<F, Num, Den...>` overload (unit.h lines
353-360). -/
def canonTerm (u : UnitE) (e : Rat) : Canon :=
  if e = 1 then canon u
  else ⟨magPow (canon u).cmag e, .derived (.fcons (canon u).cref e .fnil) .fnil⟩

theorem canonList_cons (am : Mag) (ar : UnitE) (u : UnitE) (e : Rat) (t : FactorList) :
    canonList am ar (.fcons u e t) =
      canonList (magMul am (canonTerm u e).cmag) (opMul ar (canonTerm u e).cref) t := rfl

/-- `operator==(Lhs, Rhs)` from unit.h: equal iff the canonical reference
units are the same type and the canonical magnitudes are equal. -/
def unitEqb (l r : UnitE) : Bool :=
  decide ((canon l).cref = (canon r).cref) && decide ((canon l).cmag = (canon r).cmag)

/-- `convertible(Lhs, Rhs)` from unit.h: convertible iff the canonical
reference units are the same type. -/
def convertibleb (l r : UnitE) : Bool :=
  decide ((canon l).cref = (canon r).cref)

/-- The model of `std::derived_from<U1, U2>` on unit types: a named unit
type inherits from the type of the unit expression it is defined with, so
the inheritance chain follows the named-unit definition chain. -/
def derivedFromb : UnitE → UnitE → Bool :=
  fun a b =>
    if a = b then true
    else
      match a with
      | .named _ u => derivedFromb u b
      | _ => false

/-- `detail::common_type_impl` from unit.h (lines 733-754). -/
def commonTypeImpl (u1 u2 : UnitE) : UnitE :=
  if unitEqb u1 u2 then (if derivedFromb u1 u2 then u1 else u2)
  else if isIntegral (magDiv (canon u1).cmag (canon u2).cmag) then u2
  else if isIntegral (magDiv (canon u2).cmag (canon u1).cmag) then u1
  else .scaled (commonMag (canon u1).cmag (canon u2).cmag) (canon u1).cref

/-! ### Concrete units for the spec's examples -/

/-- The base unit metre (`named_unit<"m">`). -/
def metre : UnitE := .base 0

/-- The base unit second (`named_unit<"s">`). -/
def second : UnitE := .base 1

/-- The magnitude 1000 = 2^3 * 5^3 in prime-factorized form. -/
def mag1000 : Mag := [(.prim 2, 3), (.prim 5, 3)]

/-- The named unit hertz (`named_unit<"Hz", 1 / second>`). -/
def hertz : UnitE := .named 0 (exprInvert second)

/-- The prefixed unit kilometre (`kilo<metre>`, a named unit deriving from
`scaled_unit<mag_power<10, 3>, metre>`). -/
def kilometre : UnitE := .named 1 (.scaled mag1000 metre)

/-! ### Symbol formatting

Control-flow-faithful model of `get_unit_symbol` from unit.h (lines
509-728).  Output text is abstracted into tokens (symbols, superscripts,
magnitude texts, single characters, separators); the C++ exceptions and the
`static_assert` in `magnitude_text` become typed errors. -/

/-- `text_encoding` from unit.h. -/
inductive TextEncoding where
  | unicode
  | ascii
deriving DecidableEq

/-- `unit_symbol_denominator` from unit.h. -/
inductive DenomStyle where
  | solidusOne
  | alwaysSolidus
  | alwaysNegative
deriving DecidableEq

/-- `unit_symbol_separator` from unit.h. -/
inductive SepStyle where
  | space
  | dot
deriving DecidableEq

/-- `unit_symbol_formatting` from unit.h. -/
structure FmtOpts where
  encoding : TextEncoding
  denom : DenomStyle
  separator : SepStyle
deriving DecidableEq

/-- Formatting failures: `std::invalid_argument` for the dot separator
outside Unicode, the `static_assert` rejecting non-integer-ratio
magnitudes, and `gsl_Expects` contract violations. -/
inductive FErr where
  | unsupportedOption
  | magUnsupported
  | contractViolation
deriving DecidableEq

/-- Output tokens of the symbol formatter. -/
inductive Tok where
  | bsym : Nat → Tok
  | nsym : Nat → Tok
  | sup : Int → Tok
  | supFrac : Int → Nat → Tok
  | magTok : Mag → Tok
  | ch : Char → Tok
  | sepSpace : Tok
  | sepDot : Tok
deriving DecidableEq

/-- `detail::magnitude_text<M>()` from unit.h (lines 557-591): extract the
largest power of ten, then the remaining factor must be exactly the ratio
of its integer numerator and denominator; otherwise the static_assert
"Printing rational powers, or irrational bases, not yet supported" fires
(modelled as the `magUnsupported` error).  The rendered text itself is
abstracted into a single token carrying the magnitude. -/
def magnitudeText (m : Mag) : Except FErr (List Tok) :=
  if magDiv m (pow10 (extractPow10 m)) =
      magDiv (magNumerator (magDiv m (pow10 (extractPow10 m))))
        (magDenominator (magDiv m (pow10 (extractPow10 m)))) then
    .ok [.magTok m]
  else .error .magUnsupported

/-- `detail::print_separator` from unit.h (lines 593-604): the dot
separator requires Unicode encoding and otherwise throws
`std::invalid_argument`. -/
def printSeparator (fmt : FmtOpts) : Except FErr (List Tok) :=
  if fmt.separator = .dot then
    if fmt.encoding ≠ .unicode then .error .unsupportedOption
    else .ok [.sepDot]
  else .ok [.sepSpace]

/-- Whether a unit type inherits from `derived_unit<>` (the dimensionless
`one`), used by the scaled-unit printing case. -/
def isOneLike (u : UnitE) : Bool := derivedFromb u oneU

/-- Number of factors of a factor list. -/
def flLen : FactorList → Nat
  | .fnil => 0
  | .fcons _ _ t => flLen t + 1

mutual
/-- `detail::unit_symbol_impl` from unit.h for a single unit: a named unit
prints its symbol plus a superscript -1 when a negative power is requested
(lines 606-616); a scaled unit prints the magnitude text followed by the
reference unit (lines 618-635); a derived unit asserts that no negative
power was requested and dispatches on its numerator/denominator lists
(lines 674-711). -/
def symU (fmt : FmtOpts) (negPow : Bool) : UnitE → Except FErr (List Tok)
  | .base i => .ok ([Tok.bsym i] ++ if negPow then [Tok.sup (-1)] else [])
  | .named i _ => .ok ([Tok.nsym i] ++ if negPow then [Tok.sup (-1)] else [])
  | .scaled m u =>
    if m = magOne then symU fmt negPow u
    else
      match magnitudeText m with
      | .error e => .error e
      | .ok mt =>
        if isOneLike u then .ok mt
        else
          match symU fmt negPow u with
          | .error e => .error e
          | .ok ut => .ok (mt ++ [Tok.ch ' '] ++ ut)
  | .derived n d =>
    if negPow then .error .contractViolation
    else
      match n, d with
      | .fnil, .fnil => .ok []
      | n, .fnil => symList fmt false true n
      | n, .fcons v f s =>
        match (match n with
               | .fnil => Except.ok ([] : List Tok)
               | _ => symList fmt false true n) with
        | .error e => .error e
        | .ok nt =>
          match (if fmt.denom = .alwaysSolidus ∨
                    (fmt.denom = .solidusOne ∧ flLen (.fcons v f s) = 1) then
                   Except.ok ((match n with
                               | FactorList.fnil => [Tok.ch '1']
                               | _ => ([] : List Tok)) ++ [Tok.ch '/'])
                 else printSeparator fmt) with
          | .error e => .error e
          | .ok st =>
            match symList fmt
                (fmt.denom = .alwaysNegative ∨
                  (fmt.denom = .solidusOne ∧ 1 < flLen (.fcons v f s)))
                true (.fcons v f s) with
            | .error e => .error e
            | .ok dt =>
              .ok (nt ++ st ++
                (if fmt.denom = .alwaysSolidus ∧ 1 < flLen (.fcons v f s)
                  then [Tok.ch '('] else []) ++ dt ++
                (if fmt.denom = .alwaysSolidus ∧ 1 < flLen (.fcons v f s)
                  then [Tok.ch ')'] else []))
/-- `detail::unit_symbol_impl` over a factor list with separators between
consecutive factors (unit.h lines 660-672), including the `power<F, ...>`
factor case (lines 637-658): print the base with no negative power, then a
"^(num/den)" part for a fractional exponent or a plain superscript
otherwise. -/
def symList (fmt : FmtOpts) (negPow : Bool) (first : Bool) :
    FactorList → Except FErr (List Tok)
  | .fnil => .ok []
  | .fcons u e t =>
    match (if first then Except.ok ([] : List Tok) else printSeparator fmt) with
    | .error er => .error er
    | .ok st =>
      match (if e = 1 then symU fmt negPow u
             else
               match symU fmt false u with
               | .error er => .error er
               | .ok ut =>
                 if e.den ≠ 1 then .ok (ut ++ [Tok.supFrac e.num e.den])
                 else if negPow then .ok (ut ++ [Tok.sup (-e.num)])
                 else .ok (ut ++ [Tok.sup e.num])) with
      | .error er => .error er
      | .ok ft =>
        match symList fmt negPow false t with
        | .error er => .error er
        | .ok rt => .ok (st ++ ft ++ rt)
end

/-- `unit_symbol` from unit.h (lines 716-728): the public entry point. -/
def unitSymbol (u : UnitE) (fmt : FmtOpts) : Except FErr (List Tok) :=
  symU fmt false u

/-! ### Well-formed (reachable) units -/

/-- Whether a unit is a `scaled_unit` specialization
(`detail::is_specialization_of_scaled_unit`). -/
def isScaledB : UnitE → Bool
  | .scaled _ _ => true
  | _ => false

/-- Whether a unit is an atomic named unit (a `named_unit` or a type
derived from one). -/
def isAtomB : UnitE → Bool
  | .base _ => true
  | .named _ _ => true
  | _ => false

/-- Disjointness of the atom sets of two term lists. -/
def disjointKeys (a b : TList) : Bool :=
  a.all fun p => b.all fun q => decide (p.1 ≠ q.1)

mutual
/-- Well-formed (reachable, normalized) units: a scaled unit carries a
well-formed non-identity magnitude over a well-formed reference; factor
lists of a derived unit are sorted with positive exponents, contain no
scaled units and no `one`, bare (exponent-one) factors are named atoms,
numerator and denominator atoms are disjoint, and the single-bare-factor
collapse form does not occur (the expression templates collapse it). -/
def wfU : UnitE → Bool
  | .base _ => true
  | .named _ u => wfU u
  | .scaled m u => decide (wfMag m) && decide (m ≠ magOne) && !(isScaledB u) && wfU u
  | .derived n d =>
    wfL n && wfL d && decide (sortedT (toL n)) && decide (sortedT (toL d)) &&
      disjointKeys (toL n) (toL d) &&
      !(match n, d with
        | .fcons _ e .fnil, .fnil => decide (e = 1)
        | _, _ => false)
/-- Well-formedness of the factors of a derived unit. -/
def wfL : FactorList → Bool
  | .fnil => true
  | .fcons u e t =>
    decide (0 < e) && !(isScaledB u) && decide (u ≠ oneU) &&
      (decide (e ≠ 1) || isAtomB u) && wfU u && wfL t
end

/-! ### Structural properties of the operators -/

theorem opMul_eq_opMulNS : ∀ l r : UnitE, isScaledB l = false → opMul l r = opMulNS l r
  | .base _, _, _ => rfl
  | .named _ _, _, _ => rfl
  | .derived _ _, _, _ => rfl
  | .scaled _ _, _, h => by cases h

theorem opDiv_eq_opDivNS : ∀ l r : UnitE, isScaledB l = false → opDiv l r = opDivNS l r
  | .base _, _, _ => rfl
  | .named _ _, _, _ => rfl
  | .derived _ _, _, _ => rfl
  | .scaled _ _, _, h => by cases h

/-- The right-scaled case of `operator*`: for a non-scaled left operand the
magnitude of the right operand is factored outward. -/
theorem opMul_scaled_right (l : UnitE) (n : Mag) (v : UnitE) (h : isScaledB l = false) :
    opMul l (.scaled n v) = smul n (opMul l v) := by
  rw [opMul_eq_opMulNS l _ h, opMul_eq_opMulNS l v h]
  rfl

/-- The right-scaled case of `operator/`: the source multiplies by the
right operand's magnitude (unit.h line 440). -/
theorem opDiv_scaled_right (l : UnitE) (n : Mag) (v : UnitE) (h : isScaledB l = false) :
    opDiv l (.scaled n v) = smul n (opDiv l v) := by
  rw [opDiv_eq_opDivNS l _ h, opDiv_eq_opDivNS l v h]
  rfl

theorem unitEqb_refl (u : UnitE) : unitEqb u u = true := by
  simp [unitEqb]

/-! ### No scaled unit inside a derived-unit expression -/

mutual
/-- No `scaled_unit` occurs as an element of any derived-unit factor list
inside the unit. -/
def noScaledFactors : UnitE → Prop
  | .scaled _ u => noScaledFactors u
  | .derived n d => nsfL n ∧ nsfL d
  | _ => True
/-- Factor-list component of `noScaledFactors`. -/
def nsfL : FactorList → Prop
  | .fnil => True
  | .fcons u _ t => isScaledB u = false ∧ noScaledFactors u ∧ nsfL t
end

/-- Term-list version of the invariant. -/
def nsfT (l : TList) : Prop := ∀ p ∈ l, isScaledB p.1 = false ∧ noScaledFactors p.1

theorem nsfL_toL : ∀ l : FactorList, nsfL l → nsfT (toL l)
  | .fnil, _ => by
    intro p hp
    cases hp
  | .fcons u e t, h => by
    intro p hp
    rcases List.mem_cons.mp hp with h2 | h2
    · rw [h2]
      exact ⟨h.1, h.2.1⟩
    · exact nsfL_toL t h.2.2 p h2

theorem nsfL_ofL : ∀ l : TList, nsfT l → nsfL (ofL l)
  | [], _ => trivial
  | (u, e) :: t, h => by
    refine ⟨(h (u, e) (List.mem_cons_self _ t)).1,
      (h (u, e) (List.mem_cons_self _ t)).2, ?_⟩
    exact nsfL_ofL t (fun p hp => h p (List.mem_cons_of_mem _ hp))

theorem negT_nsf {l : TList} (h : nsfT l) : nsfT (negT l) := by
  intro p hp
  rcases List.mem_map.mp hp with ⟨q, hq, he⟩
  rw [← he]
  exact h q hq

theorem mulT_mem {l r : TList} : ∀ p ∈ mulT l r, (∃ f, (p.1, f) ∈ l) ∨ p ∈ r := by
  induction l with
  | nil =>
    intro p hp
    exact Or.inr hp
  | cons q t ih =>
    obtain ⟨c, e⟩ := q
    intro p hp
    rcases insT_mem p hp with h | h
    · exact Or.inl ⟨e, by rw [h]; exact List.mem_cons_self _ t⟩
    · rcases ih p h with ⟨f, hf⟩ | h2
      · exact Or.inl ⟨f, List.mem_cons_of_mem _ hf⟩
      · exact Or.inr h2

theorem sumT_mem {l : TList} : ∀ p ∈ sumT l, ∃ f, (p.1, f) ∈ l := by
  intro p hp
  rcases mulT_mem p hp with h | h
  · exact h
  · cases h

theorem nsfT_sumT {l : TList} (h : nsfT l) : nsfT (sumT l) := by
  intro p hp
  rcases sumT_mem p hp with ⟨f, hf⟩
  exact h (p.1, f) hf

theorem nsfT_splitPos {l : TList} (h : nsfT l) : nsfT (splitPos l) := by
  intro p hp
  exact h p (List.mem_of_mem_filter hp)

theorem nsfT_splitNeg {l : TList} (h : nsfT l) : nsfT (splitNeg l) := by
  apply negT_nsf
  intro p hp
  exact h p (List.mem_of_mem_filter hp)

theorem mk2_nsf {n d : TList} (hn : nsfT n) (hd : nsfT d) : noScaledFactors (mk2 n d) := by
  unfold mk2
  split
  · rename_i u e
    split
    · exact (hn (u, e) (List.mem_singleton.mpr rfl)).2
    · exact ⟨⟨(hn (u, e) (List.mem_singleton.mpr rfl)).1,
        (hn (u, e) (List.mem_singleton.mpr rfl)).2, trivial⟩, trivial⟩
  · exact ⟨nsfL_ofL _ hn, nsfL_ofL _ hd⟩

theorem toTerms_nsf {a : UnitE} (hs : isScaledB a = false) (h : noScaledFactors a) :
    nsfT (toTerms a) := by
  cases a with
  | scaled m u => cases hs
  | derived n d =>
    intro p hp
    rcases List.mem_append.mp hp with h2 | h2
    · exact nsfL_toL n h.1 p h2
    · exact negT_nsf (nsfL_toL d h.2) p h2
  | base i =>
    intro p hp
    rw [List.mem_singleton.mp hp]
    exact ⟨rfl, trivial⟩
  | named i u =>
    intro p hp
    rw [List.mem_singleton.mp hp]
    exact ⟨rfl, h⟩

theorem exprMultiply_nsf {l r : UnitE} (hl : isScaledB l = false)
    (hr : isScaledB r = false) (h1 : noScaledFactors l) (h2 : noScaledFactors r) :
    noScaledFactors (exprMultiply l r) := by
  unfold exprMultiply normTerms
  apply mk2_nsf
  · apply nsfT_splitPos
    apply nsfT_sumT
    intro p hp
    rcases List.mem_append.mp hp with h3 | h3
    · exact toTerms_nsf hl h1 p h3
    · exact toTerms_nsf hr h2 p h3
  · apply nsfT_splitNeg
    apply nsfT_sumT
    intro p hp
    rcases List.mem_append.mp hp with h3 | h3
    · exact toTerms_nsf hl h1 p h3
    · exact toTerms_nsf hr h2 p h3

theorem exprDivide_nsf {l r : UnitE} (hl : isScaledB l = false)
    (hr : isScaledB r = false) (h1 : noScaledFactors l) (h2 : noScaledFactors r) :
    noScaledFactors (exprDivide l r) := by
  unfold exprDivide normTerms
  apply mk2_nsf
  · apply nsfT_splitPos
    apply nsfT_sumT
    intro p hp
    rcases List.mem_append.mp hp with h3 | h3
    · exact toTerms_nsf hl h1 p h3
    · exact negT_nsf (toTerms_nsf hr h2) p h3
  · apply nsfT_splitNeg
    apply nsfT_sumT
    intro p hp
    rcases List.mem_append.mp hp with h3 | h3
    · exact toTerms_nsf hl h1 p h3
    · exact negT_nsf (toTerms_nsf hr h2) p h3

theorem smul_nsf {m : Mag} {u : UnitE} (h : noScaledFactors u) :
    noScaledFactors (smul m u) := by
  unfold smul
  split
  · exact h
  · exact h

theorem opMulNS_nsf : ∀ (l r : UnitE), isScaledB l = false →
    noScaledFactors l → noScaledFactors r → noScaledFactors (opMulNS l r)
  | l, .scaled n v, hl, h1, h2 => by
    simp only [opMulNS]
    exact smul_nsf (opMulNS_nsf l v hl h1 h2)
  | .base i, .base j, hl, h1, h2 => exprMultiply_nsf hl rfl h1 h2
  | .base i, .named j v, hl, h1, h2 => exprMultiply_nsf hl rfl h1 h2
  | .base i, .derived n d, hl, h1, h2 => exprMultiply_nsf hl rfl h1 h2
  | .named i u, .base j, hl, h1, h2 => exprMultiply_nsf hl rfl h1 h2
  | .named i u, .named j v, hl, h1, h2 => exprMultiply_nsf hl rfl h1 h2
  | .named i u, .derived n d, hl, h1, h2 => exprMultiply_nsf hl rfl h1 h2
  | .derived n d, .base j, hl, h1, h2 => exprMultiply_nsf hl rfl h1 h2
  | .derived n d, .named j v, hl, h1, h2 => exprMultiply_nsf hl rfl h1 h2
  | .derived n d, .derived n2 d2, hl, h1, h2 => exprMultiply_nsf hl rfl h1 h2
  | .scaled _ _, _, hl, _, _ => by cases hl

theorem opDivNS_nsf : ∀ (l r : UnitE), isScaledB l = false →
    noScaledFactors l → noScaledFactors r → noScaledFactors (opDivNS l r)
  | l, .scaled n v, hl, h1, h2 => by
    simp only [opDivNS]
    exact smul_nsf (opDivNS_nsf l v hl h1 h2)
  | .base i, .base j, hl, h1, h2 => exprDivide_nsf hl rfl h1 h2
  | .base i, .named j v, hl, h1, h2 => exprDivide_nsf hl rfl h1 h2
  | .base i, .derived n d, hl, h1, h2 => exprDivide_nsf hl rfl h1 h2
  | .named i u, .base j, hl, h1, h2 => exprDivide_nsf hl rfl h1 h2
  | .named i u, .named j v, hl, h1, h2 => exprDivide_nsf hl rfl h1 h2
  | .named i u, .derived n d, hl, h1, h2 => exprDivide_nsf hl rfl h1 h2
  | .derived n d, .base j, hl, h1, h2 => exprDivide_nsf hl rfl h1 h2
  | .derived n d, .named j v, hl, h1, h2 => exprDivide_nsf hl rfl h1 h2
  | .derived n d, .derived n2 d2, hl, h1, h2 => exprDivide_nsf hl rfl h1 h2
  | .scaled _ _, _, hl, _, _ => by cases hl

theorem opMul_nsf : ∀ (a b : UnitE), noScaledFactors a → noScaledFactors b →
    noScaledFactors (opMul a b)
  | .scaled m u, .scaled n v, ha, hb => by
    show noScaledFactors (smul (magMul m n) (opMul u v))
    exact smul_nsf (opMul_nsf u v ha hb)
  | .scaled m u, .base j, ha, hb => smul_nsf (opMul_nsf u (.base j) ha hb)
  | .scaled m u, .named j v, ha, hb => smul_nsf (opMul_nsf u (.named j v) ha hb)
  | .scaled m u, .derived n d, ha, hb => smul_nsf (opMul_nsf u (.derived n d) ha hb)
  | .base i, b, ha, hb => opMulNS_nsf (.base i) b rfl ha hb
  | .named i u, b, ha, hb => opMulNS_nsf (.named i u) b rfl ha hb
  | .derived n d, b, ha, hb => opMulNS_nsf (.derived n d) b rfl ha hb

theorem opDiv_nsf : ∀ (a b : UnitE), noScaledFactors a → noScaledFactors b →
    noScaledFactors (opDiv a b)
  | .scaled m u, .scaled n v, ha, hb => by
    show noScaledFactors (smul (magDiv m n) (opDiv u v))
    exact smul_nsf (opDiv_nsf u v ha hb)
  | .scaled m u, .base j, ha, hb => smul_nsf (opDiv_nsf u (.base j) ha hb)
  | .scaled m u, .named j v, ha, hb => smul_nsf (opDiv_nsf u (.named j v) ha hb)
  | .scaled m u, .derived n d, ha, hb => smul_nsf (opDiv_nsf u (.derived n d) ha hb)
  | .base i, b, ha, hb => opDivNS_nsf (.base i) b rfl ha hb
  | .named i u, b, ha, hb => opDivNS_nsf (.named i u) b rfl ha hb
  | .derived n d, b, ha, hb => opDivNS_nsf (.derived n d) b rfl ha hb

/-! ### Normal forms of expression-template outputs -/

theorem lexpSum_eq_zero_of_lt {l : TList} {x : UnitE}
    (h : ∀ p ∈ l, cmpU x p.1 = .lt) : lexpSum l x = 0 := by
  induction l with
  | nil => rfl
  | cons p t ih =>
    obtain ⟨c, e⟩ := p
    have hx : cmpU x c = .lt := h (c, e) (List.mem_cons_self _ t)
    have hne : c ≠ x := fun he => by
      rw [he, cmpU_refl] at hx
      cases hx
    simp only [lexpSum, if_neg hne, zero_add]
    exact ih (fun q hq => h q (List.mem_cons_of_mem _ hq))

/-- On a sorted list the signed exponent sum coincides with the lookup. -/
theorem lexpSum_eq_texp {l : TList} (hs : sortedT l) (x : UnitE) :
    lexpSum l x = texp l x := by
  induction l with
  | nil => rfl
  | cons p t ih =>
    obtain ⟨hq, ht⟩ := sortedT_cons hs
    obtain ⟨c, e⟩ := p
    simp only [lexpSum, texp]
    by_cases hcx : c = x
    · subst hcx
      rw [if_pos rfl, if_pos rfl, lexpSum_eq_zero_of_lt (fun q hq2 => hq q hq2)]
      ring
    · rw [if_neg hcx, if_neg hcx, ih ht]
      ring

theorem lexpSum_negT (l : TList) (x : UnitE) : lexpSum (negT l) x = -(lexpSum l x) := by
  induction l with
  | nil => simp [negT, lexpSum]
  | cons p t ih =>
    obtain ⟨c, e⟩ := p
    simp only [negT, List.map, lexpSum] at *
    rw [ih, qneg_eq]
    by_cases hcx : c = x
    · rw [if_pos hcx, if_pos hcx]
      ring
    · rw [if_neg hcx, if_neg hcx]
      ring

/-- A positive-exponent member forces a positive lookup. -/
theorem texp_pos {l : TList} (hs : sortedT l) (hp : ∀ p ∈ l, 0 < p.2) {x : UnitE}
    (h : texp l x ≠ 0) : 0 < texp l x := by
  obtain ⟨p, hm, h1, h2⟩ := texp_ne_zero_mem h
  rw [← h2]
  exact hp p hm

/-- The invariants of the numerator/denominator term lists of a reachable
derived-unit expression. -/
def goodLists (n d : TList) : Prop :=
  sortedT n ∧ sortedT d ∧ (∀ p ∈ n, 0 < p.2) ∧ (∀ p ∈ d, 0 < p.2) ∧
    (∀ p ∈ n, ∀ q ∈ d, p.1 ≠ q.1) ∧ ¬(∃ u, n = [(u, 1)] ∧ d = [])

mutual
/-- Units that can appear as canonical reference units or as operands of
the expression-template operations: never a scaled unit, and a derived
unit has well-formed factor lists whose atoms are themselves good. -/
def goodRef : UnitE → Prop
  | .scaled _ _ => False
  | .derived n d => goodL n ∧ goodL d ∧ goodLists (toL n) (toL d)
  | _ => True
/-- Factor-list component of `goodRef`. -/
def goodL : FactorList → Prop
  | .fnil => True
  | .fcons u _ t => isScaledB u = false ∧ goodRef u ∧ goodL t
end

/-- Term-list version: every atom is non-scaled and good. -/
def goodT (l : TList) : Prop := ∀ p ∈ l, isScaledB p.1 = false ∧ goodRef p.1

theorem goodRef_not_scaled : ∀ {u : UnitE}, goodRef u → isScaledB u = false
  | .base _, _ => rfl
  | .named _ _, _ => rfl
  | .derived _ _, _ => rfl
  | .scaled _ _, h => absurd h (by simp [goodRef])

theorem goodL_toL : ∀ l : FactorList, goodL l → goodT (toL l)
  | .fnil, _ => by
    intro p hp
    cases hp
  | .fcons u e t, h => by
    intro p hp
    rcases List.mem_cons.mp hp with h2 | h2
    · rw [h2]
      exact ⟨h.1, h.2.1⟩
    · exact goodL_toL t h.2.2 p h2

theorem goodL_ofL : ∀ l : TList, goodT l → goodL (ofL l)
  | [], _ => trivial
  | (u, e) :: t, h =>
    ⟨(h (u, e) (List.mem_cons_self _ t)).1, (h (u, e) (List.mem_cons_self _ t)).2,
      goodL_ofL t (fun p hp => h p (List.mem_cons_of_mem _ hp))⟩

theorem goodT_negT {l : TList} (h : goodT l) : goodT (negT l) := by
  intro p hp
  rcases List.mem_map.mp hp with ⟨q, hq, he⟩
  rw [← he]
  exact h q hq

theorem goodT_toTerms {a : UnitE} (hs : isScaledB a = false) (h : goodRef a) :
    goodT (toTerms a) := by
  cases a with
  | scaled m u => cases hs
  | derived n d =>
    intro p hp
    rcases List.mem_append.mp hp with h2 | h2
    · exact goodL_toL n h.1 p h2
    · exact goodT_negT (goodL_toL d h.2.1) p h2
  | base i =>
    intro p hp
    rw [List.mem_singleton.mp hp]
    exact ⟨rfl, trivial⟩
  | named i u =>
    intro p hp
    rw [List.mem_singleton.mp hp]
    exact ⟨rfl, h⟩

theorem goodT_sumT {l : TList} (h : goodT l) : goodT (sumT l) := by
  intro p hp
  rcases sumT_mem p hp with ⟨f, hf⟩
  exact h (p.1, f) hf

theorem goodT_splitPos {l : TList} (h : goodT l) : goodT (splitPos l) := by
  intro p hp
  exact h p (List.mem_of_mem_filter hp)

theorem goodT_splitNeg {l : TList} (h : goodT l) : goodT (splitNeg l) := by
  apply goodT_negT
  intro p hp
  exact h p (List.mem_of_mem_filter hp)

theorem splitPos_pos {l : TList} : ∀ p ∈ splitPos l, 0 < p.2 := by
  intro p hp
  have := List.of_mem_filter hp
  simpa using this

theorem splitNeg_pos {l : TList} : ∀ p ∈ splitNeg l, 0 < p.2 := by
  intro p hp
  rcases List.mem_map.mp hp with ⟨q, hq, he⟩
  have := List.of_mem_filter hq
  rw [← he]
  simp only [qneg_eq]
  simp only [decide_eq_true_eq] at this
  linarith

/-- Atoms of the positive and the negative part of a sorted list are
disjoint. -/
theorem split_disjoint {l : TList} (hs : sortedT l) :
    ∀ p ∈ splitPos l, ∀ q ∈ splitNeg l, p.1 ≠ q.1 := by
  intro p hp q hq he
  have hp2 : p ∈ l := List.mem_of_mem_filter hp
  have hppos : (0 : Rat) < p.2 := by simpa using List.of_mem_filter hp
  rcases List.mem_map.mp hq with ⟨r, hr, hre⟩
  have hr2 : r ∈ l := List.mem_of_mem_filter hr
  have hrneg : r.2 < 0 := by simpa using List.of_mem_filter hr
  have e1 : texp l p.1 = p.2 := texp_mem hs hp2
  have e2 : texp l r.1 = r.2 := texp_mem hs hr2
  have hq1 : q.1 = r.1 := by rw [← hre]
  rw [he, hq1, e2] at e1
  linarith

/-- Rebuilding from lists that are not the collapse form yields the
derived unit with exactly those lists. -/
theorem mk2_eq_derived {n d : TList} (h : ¬∃ u, n = [(u, 1)] ∧ d = []) :
    mk2 n d = .derived (ofL n) (ofL d) := by
  unfold mk2
  split
  · rename_i u e
    split
    · rename_i he
      exact absurd ⟨u, by rw [he], rfl⟩ h
    · rfl
  · rfl

/-- The rebuilt unit of a normalization output is good provided every atom
is good. -/
theorem mk2_good {P N : TList} (hsP : sortedT P) (hsN : sortedT N)
    (hpP : ∀ p ∈ P, 0 < p.2) (hpN : ∀ p ∈ N, 0 < p.2)
    (hdisj : ∀ p ∈ P, ∀ q ∈ N, p.1 ≠ q.1)
    (hTP : goodT P) (hTN : goodT N) : goodRef (mk2 P N) := by
  unfold mk2
  split
  · rename_i u e
    split
    · exact (hTP (u, e) (List.mem_singleton.mpr rfl)).2
    · rename_i he
      refine ⟨⟨(hTP (u, e) (List.mem_singleton.mpr rfl)).1,
        (hTP (u, e) (List.mem_singleton.mpr rfl)).2, trivial⟩, trivial, ?_⟩
      rw [show toL (.fcons u e .fnil) = [(u, e)] from rfl, show toL .fnil = ([] : TList) from rfl]
      refine ⟨hsP, List.Pairwise.nil, hpP, by simp, by simp, ?_⟩
      rintro ⟨v, hv, -⟩
      injection hv with hv1 hv2
      injection hv1 with hv3 hv4
      exact he hv4
  · rename_i hshape
    refine ⟨goodL_ofL _ hTP, goodL_ofL _ hTN, ?_⟩
    rw [toL_ofL, toL_ofL]
    refine ⟨hsP, hsN, hpP, hpN, hdisj, ?_⟩
    rintro ⟨v, hv1, hv2⟩
    exact hshape v 1 hv1 hv2

/-- The full per-operation invariant: the normalization pipeline always
produces a good unit when every input atom is good. -/
theorem norm_good {l : TList} (h : goodT l) :
    goodRef (mk2 (splitPos (sumT l)) (splitNeg (sumT l))) := by
  apply mk2_good
  · exact (wfT_splitPos (wfT_sumT l)).1
  · exact (wfT_splitNeg (wfT_sumT l)).1
  · exact splitPos_pos
  · exact splitNeg_pos
  · exact split_disjoint (sumT_sorted l)
  · exact goodT_splitPos (goodT_sumT h)
  · exact goodT_splitNeg (goodT_sumT h)

theorem exprMultiply_good {a b : UnitE} (ha : goodRef a) (hb : goodRef b) :
    goodRef (exprMultiply a b) := by
  unfold exprMultiply normTerms
  apply norm_good
  intro p hp
  rcases List.mem_append.mp hp with h2 | h2
  · exact goodT_toTerms (goodRef_not_scaled ha) ha p h2
  · exact goodT_toTerms (goodRef_not_scaled hb) hb p h2

theorem exprDivide_good {a b : UnitE} (ha : goodRef a) (hb : goodRef b) :
    goodRef (exprDivide a b) := by
  unfold exprDivide normTerms
  apply norm_good
  intro p hp
  rcases List.mem_append.mp hp with h2 | h2
  · exact goodT_toTerms (goodRef_not_scaled ha) ha p h2
  · exact goodT_negT (goodT_toTerms (goodRef_not_scaled hb) hb) p h2

theorem opMulNS_eq_exprMultiply : ∀ {l r : UnitE}, isScaledB r = false →
    opMulNS l r = exprMultiply l r
  | _, .base _, _ => rfl
  | _, .named _ _, _ => rfl
  | _, .derived _ _, _ => rfl
  | _, .scaled _ _, h => by cases h

theorem opDivNS_eq_exprDivide : ∀ {l r : UnitE}, isScaledB r = false →
    opDivNS l r = exprDivide l r
  | _, .base _, _ => rfl
  | _, .named _ _, _ => rfl
  | _, .derived _ _, _ => rfl
  | _, .scaled _ _, h => by cases h

theorem opMul_good {a b : UnitE} (ha : goodRef a) (hb : goodRef b) :
    goodRef (opMul a b) := by
  rw [opMul_eq_opMulNS a b (goodRef_not_scaled ha),
    opMulNS_eq_exprMultiply (goodRef_not_scaled hb)]
  exact exprMultiply_good ha hb

theorem opDiv_good {a b : UnitE} (ha : goodRef a) (hb : goodRef b) :
    goodRef (opDiv a b) := by
  rw [opDiv_eq_opDivNS a b (goodRef_not_scaled ha),
    opDivNS_eq_exprDivide (goodRef_not_scaled hb)]
  exact exprDivide_good ha hb

/-- Disjoint atom sets make at most one of two lookups nonzero. -/
theorem disjoint_texp {n d : TList} (hdisj : ∀ p ∈ n, ∀ q ∈ d, p.1 ≠ q.1) {x : UnitE}
    (ha : texp n x ≠ 0) : texp d x = 0 := by
  by_contra hb
  obtain ⟨p, hp, hp1, -⟩ := texp_ne_zero_mem ha
  obtain ⟨q, hq, hq1, -⟩ := texp_ne_zero_mem hb
  exact hdisj p hp q hq (by rw [hp1, hq1])

/-- Normalizing the signed decomposition of a good numerator/denominator
pair recovers exactly the pair. -/
theorem splits_of_goodLists {n d : TList} (h : goodLists n d) :
    splitPos (sumT (n ++ negT d)) = n ∧ splitNeg (sumT (n ++ negT d)) = d := by
  obtain ⟨hsn, hsd, hpn, hpd, hdisj, -⟩ := h
  have hwn : wfT n := ⟨hsn, fun p hp => ne_of_gt (hpn p hp)⟩
  have hwd : wfT d := ⟨hsd, fun p hp => ne_of_gt (hpd p hp)⟩
  have hS : ∀ x, texp (sumT (n ++ negT d)) x = texp n x - texp d x := by
    intro x
    rw [sumT_texp, lexpSum_append, lexpSum_negT, lexpSum_eq_texp hsn, lexpSum_eq_texp hsd]
    ring
  constructor
  · apply tExt (wfT_splitPos (wfT_sumT _)) hwn
    intro x
    rw [splitPos_texp (sumT_sorted _), hS x]
    by_cases ha : texp n x = 0
    · rw [ha]
      by_cases hb : texp d x = 0
      · rw [hb]
        simp
      · have hbp : 0 < texp d x := texp_pos hsd hpd hb
        rw [if_neg (by linarith)]
    · have hap : 0 < texp n x := texp_pos hsn hpn ha
      have hb : texp d x = 0 := disjoint_texp hdisj ha
      rw [hb, if_pos (by linarith)]
      ring
  · apply tExt (wfT_splitNeg (wfT_sumT _)) hwd
    intro x
    rw [splitNeg_texp (sumT_sorted _), hS x]
    by_cases hb : texp d x = 0
    · rw [hb]
      by_cases ha : texp n x = 0
      · rw [ha]
        simp
      · have hap : 0 < texp n x := texp_pos hsn hpn ha
        rw [if_neg (by linarith)]
    · have hbp : 0 < texp d x := texp_pos hsd hpd hb
      have ha : texp n x = 0 := disjoint_texp (fun q hq p hp he => hdisj p hp q hq he.symm) hb
      rw [ha, if_pos (by linarith)]
      ring

theorem goodRef_one : goodRef oneU := by
  refine ⟨trivial, trivial, List.Pairwise.nil, List.Pairwise.nil, ?_, ?_, ?_, ?_⟩
  · intro p hp
    cases hp
  · intro p hp
    cases hp
  · intro p hp
    cases hp
  · rintro ⟨u, hu, -⟩
    cases hu

/-- Multiplying `one` from the left is the identity on good units, the way
the canonicalization fold `(one * ... * refs)` relies on. -/
theorem oneMul_good : ∀ {r : UnitE}, goodRef r → opMul oneU r = r
  | .base _, _ => rfl
  | .named _ _, _ => rfl
  | .scaled _ _, h => absurd h (by simp [goodRef])
  | .derived n d, h => by
    show exprMultiply oneU (.derived n d) = .derived n d
    unfold exprMultiply normTerms
    have ht : toTerms oneU ++ toTerms (.derived n d) = toL n ++ negT (toL d) := rfl
    rw [ht, (splits_of_goodLists h.2.2).1, (splits_of_goodLists h.2.2).2,
      mk2_eq_derived h.2.2.2.2.2.2.2, ofL_toL, ofL_toL]

theorem wfMag_one : wfMag magOne := by
  unfold wfMag sortedMag magOne
  simp

mutual
theorem canon_good : ∀ u : UnitE, wfU u = true → goodRef (canon u).cref
  | .base _, _ => trivial
  | .named _ u, h => canon_good u h
  | .scaled m u, h => by
    have hu : wfU u = true := by
      simp only [wfU, Bool.and_eq_true] at h
      exact h.2
    show goodRef (canon u).cref
    exact canon_good u hu
  | .derived n d, h => by
    have hl : wfL n = true ∧ wfL d = true := by
      simp only [wfU, Bool.and_eq_true] at h
      exact ⟨h.1.1.1.1.1, h.1.1.1.1.2⟩
    cases d with
    | fnil =>
      show goodRef (canonList magOne oneU n).cref
      exact canonList_good n magOne oneU hl.1 goodRef_one
    | fcons v f s =>
      show goodRef (opDiv (canonList magOne oneU n).cref
        (canonList magOne oneU (.fcons v f s)).cref)
      exact opDiv_good (canonList_good n magOne oneU hl.1 goodRef_one)
        (canonList_good (.fcons v f s) magOne oneU hl.2 goodRef_one)
theorem canonList_good : ∀ (l : FactorList) (am : Mag) (ar : UnitE), wfL l = true →
    goodRef ar → goodRef (canonList am ar l).cref
  | .fnil, _, _, _, har => har
  | .fcons u e t, am, ar, h, har => by
    have h5 : (0 < e) ∧ wfU u = true ∧ wfL t = true ∧ (e ≠ 1 ∨ isAtomB u = true) := by
      simp only [wfL, Bool.and_eq_true, Bool.or_eq_true, decide_eq_true_eq] at h
      obtain ⟨⟨⟨⟨⟨he, hns⟩, hone⟩, hatom⟩, hu⟩, ht⟩ := h
      exact ⟨he, hu, ht, hatom⟩
    rw [canonList_cons]
    have hterm : goodRef (canonTerm u e).cref := by
      unfold canonTerm
      split
      · exact canon_good u h5.2.1
      · rename_i hne
        refine ⟨⟨goodRef_not_scaled (canon_good u h5.2.1), canon_good u h5.2.1, trivial⟩,
          trivial, ?_⟩
        rw [show toL (.fcons (canon u).cref e .fnil) = [((canon u).cref, e)] from rfl,
          show toL .fnil = ([] : TList) from rfl]
        refine ⟨List.pairwise_singleton _ _, List.Pairwise.nil, ?_, by simp, by simp, ?_⟩
        · intro p hp
          rw [List.mem_singleton.mp hp]
          exact h5.1
        · rintro ⟨w, hw, -⟩
          injection hw with h1 h2
          injection h1 with h3 h4
          exact hne h4
    exact canonList_good t _ _ h5.2.2.1 (opMul_good har hterm)
end

mutual
theorem canon_wfMag : ∀ u : UnitE, wfMag (canon u).cmag
  | .base _ => wfMag_one
  | .named _ u => canon_wfMag u
  | .scaled m u => wfMag_magMul (canon_wfMag u)
  | .derived n d => by
    cases d with
    | fnil => exact canonList_wfMag n magOne oneU wfMag_one
    | fcons v f s =>
      exact wfMag_magDiv (canonList_wfMag n magOne oneU wfMag_one)
        (canonList_wfMag (.fcons v f s) magOne oneU wfMag_one)
theorem canonList_wfMag : ∀ (l : FactorList) (am : Mag) (ar : UnitE), wfMag am →
    wfMag (canonList am ar l).cmag
  | .fnil, _, _, h => h
  | .fcons u e t, am, ar, h => by
    rw [canonList_cons]
    apply canonList_wfMag t
    apply wfMag_magMul
    unfold canonTerm
    split
    · exact canon_wfMag u
    · exact wfMag_magPow (canon_wfMag u)
end

/-! ### Value identities for the power laws -/

theorem toL_eq_nil {l : FactorList} : toL l = [] ↔ l = .fnil := by
  constructor
  · intro h
    rw [← ofL_toL l, h]
    rfl
  · intro h
    rw [h]
    rfl

theorem toL_eq_singleton {l : FactorList} {u : UnitE} {e : Rat} :
    toL l = [(u, e)] ↔ l = .fcons u e .fnil := by
  constructor
  · intro h
    rw [← ofL_toL l, h]
    rfl
  · intro h
    rw [h]
    rfl

theorem wfL_pos : ∀ l : FactorList, wfL l = true → ∀ p ∈ toL l, 0 < p.2
  | .fnil, _, p, hp => by cases hp
  | .fcons u e t, h, p, hp => by
    simp only [wfL, Bool.and_eq_true, decide_eq_true_eq] at h
    rcases List.mem_cons.mp hp with h2 | h2
    · rw [h2]
      exact h.1.1.1.1.1
    · exact wfL_pos t h.2 p h2

theorem disjointKeys_spec {a b : TList} (h : disjointKeys a b = true) :
    ∀ p ∈ a, ∀ q ∈ b, p.1 ≠ q.1 := by
  unfold disjointKeys at h
  rw [List.all_eq_true] at h
  intro p hp q hq
  have h2 := h p hp
  rw [List.all_eq_true] at h2
  have h3 := h2 q hq
  simpa using h3

/-- The pieces of the well-formedness of a derived unit. -/
theorem wfU_derived_parts {n d : FactorList} (h : wfU (.derived n d) = true) :
    wfL n = true ∧ wfL d = true ∧ sortedT (toL n) ∧ sortedT (toL d) ∧
      (∀ p ∈ toL n, ∀ q ∈ toL d, p.1 ≠ q.1) ∧
      ¬∃ u, toL n = [(u, 1)] ∧ toL d = [] := by
  simp only [wfU, Bool.and_eq_true, decide_eq_true_eq, Bool.not_eq_true] at h
  obtain ⟨⟨⟨⟨⟨hn, hd⟩, hsn⟩, hsd⟩, hdisj⟩, hcol⟩ := h
  refine ⟨hn, hd, hsn, hsd, disjointKeys_spec hdisj, ?_⟩
  rintro ⟨u, hu, hnil⟩
  rw [toL_eq_singleton] at hu
  rw [toL_eq_nil] at hnil
  rw [hu, hnil] at hcol
  simp at hcol

/-- Applying `expr_invert` twice is the identity on well-formed units. -/
theorem exprInvert_invert : ∀ u : UnitE, wfU u = true → exprInvert (exprInvert u) = u
  | .base _, _ => rfl
  | .named _ _, _ => rfl
  | .scaled _ _, _ => rfl
  | .derived n d, h => by
    obtain ⟨hn, hd, hsn, hsd, hdisj, hcol⟩ := wfU_derived_parts h
    show exprInvert (mk2 (toL d) (toL n)) = .derived n d
    by_cases hc : ∃ u e, toL d = [(u, e)] ∧ toL n = []
    · obtain ⟨u, e, hde, hne⟩ := hc
      have hdu : d = .fcons u e .fnil := toL_eq_singleton.mp hde
      have hnu : n = .fnil := toL_eq_nil.mp hne
      rw [hde, hne]
      by_cases he : e = 1
      · subst he
        have hmk : mk2 [(u, 1)] ([] : TList) = u := rfl
        rw [hmk]
        have hatom : isAtomB u = true := by
          rw [hdu] at hd
          simp only [wfL, Bool.and_eq_true, Bool.or_eq_true, decide_eq_true_eq] at hd
          rcases hd.1.1.2 with h1 | h1
          · exact absurd rfl h1
          · exact h1
        rw [hnu, hdu]
        cases u with
        | base i => rfl
        | named i v => rfl
        | scaled m v => cases hatom
        | derived a b => cases hatom
      · have hmk : mk2 [(u, e)] ([] : TList) = .derived (.fcons u e .fnil) .fnil := by
          show (if e = 1 then u else UnitE.derived (.fcons u e .fnil) .fnil) = _
          rw [if_neg he]
        rw [hmk]
        show mk2 (toL (FactorList.fnil)) (toL (.fcons u e .fnil)) = .derived n d
        have hmk2 : mk2 ([] : TList) [(u, e)] = .derived (ofL ([] : TList)) (ofL [(u, e)]) :=
          mk2_eq_derived (by rintro ⟨w, hw, -⟩; cases hw)
        show mk2 ([] : TList) [(u, e)] = .derived n d
        rw [hmk2, hnu, hdu]
        rfl
    · have hmk : mk2 (toL d) (toL n) = .derived (ofL (toL d)) (ofL (toL n)) := by
        apply mk2_eq_derived
        rintro ⟨u, hu, hnil⟩
        exact hc ⟨u, 1, hu, hnil⟩
      rw [hmk, ofL_toL, ofL_toL]
      show mk2 (toL n) (toL d) = .derived n d
      rw [mk2_eq_derived hcol, ofL_toL, ofL_toL]

theorem mkRat_one_one : mkRat 1 1 = 1 := rfl

theorem scaleT_one (l : TList) : scaleT l 1 = l := by
  unfold scaleT
  have h : (fun p : UnitE × Rat => (p.1, qmul p.2 1)) = fun p => p := by
    funext p
    rw [qmul_eq, mul_one]
  rw [h]
  exact List.map_id' l

/-- Raising a well-formed unit to the power one leaves its canonical form
unchanged. -/
theorem opPow_one_canon : ∀ u : UnitE, wfU u = true → canon (opPow 1 1 u) = canon u
  | .base i, _ => rfl
  | .named i v, h => by
    have h1 : canon (opPow 1 1 (.named i v)) =
        ⟨(canon (.named i v)).cmag, opMul oneU (canon (.named i v)).cref⟩ := rfl
    rw [h1, oneMul_good (canon_good (.named i v) h)]
  | .scaled m v, h => by
    have hv : wfU v = true := by
      simp only [wfU, Bool.and_eq_true] at h
      exact h.2
    show canon (.scaled (magPow m (mkRat 1 1)) (opPow 1 1 v)) = canon (.scaled m v)
    rw [mkRat_one_one, magPow_one]
    show (⟨magMul m (canon (opPow 1 1 v)).cmag, (canon (opPow 1 1 v)).cref⟩ : Canon) =
      ⟨magMul m (canon v).cmag, (canon v).cref⟩
    rw [opPow_one_canon v hv]
  | .derived n d, h => by
    obtain ⟨-, -, -, -, -, hcol⟩ := wfU_derived_parts h
    have h1 : opPow 1 1 (.derived n d) = .derived n d := by
      show mk2 (scaleT (toL n) (mkRat 1 1)) (scaleT (toL d) (mkRat 1 1)) = _
      rw [mkRat_one_one, scaleT_one, scaleT_one, mk2_eq_derived hcol, ofL_toL, ofL_toL]
    rw [h1]

theorem mkRat_two_one : mkRat 2 1 = 2 := rfl

theorem qadd_one_one : qadd (1 : Rat) 1 = 2 := by decide

theorem magMul_self_ne_one {m : Mag} (h : wfMag m) (hne : m ≠ magOne) :
    magMul m m ≠ magOne := by
  intro he
  apply hne
  apply magExt h wfMag_one
  intro x
  have h2 : expOf (magMul m m) x = expOf magOne x := by rw [he]
  rw [magMul_expOf h.1 h.1] at h2
  have h0 : expOf magOne x = 0 := rfl
  rw [h0] at h2 ⊢
  linarith

/-- Multiplying an atomic unit by itself yields the squared factor list. -/
theorem exprMultiply_self_atom (u : UnitE) (hu : toTerms u = [(u, 1)]) :
    exprMultiply u u = .derived (.fcons u 2 .fnil) .fnil := by
  have h1 : insT u 1 ([] : TList) = [(u, 1)] := by
    show (if (1 : Rat) = 0 then [] else [(u, 1)]) = [(u, 1)]
    rw [if_neg one_ne_zero]
  have h2 : insT u 1 [(u, 1)] = [(u, 2)] := by
    simp only [insT, cmpU_refl]
    show (if qadd 1 1 = 0 then [] else [(u, qadd 1 1)]) = [(u, 2)]
    rw [qadd_one_one, if_neg (by norm_num : (2 : Rat) ≠ 0)]
  have hsum : sumT ([(u, 1)] ++ [(u, 1)]) = [(u, 2)] := by
    show insT u 1 (insT u 1 (mulT [] [])) = [(u, 2)]
    show insT u 1 (insT u 1 []) = [(u, 2)]
    rw [h1, h2]
  unfold exprMultiply normTerms
  rw [hu]
  dsimp only
  rw [hsum]
  rfl

/-- Squaring (`pow<2>`) coincides with self-multiplication on well-formed
units. -/
theorem opPow_two : ∀ u : UnitE, wfU u = true → opPow 2 1 u = opMul u u
  | .base i, _ => by
    have h1 : opMul (.base i) (.base i) = exprMultiply (.base i) (.base i) := rfl
    rw [h1, exprMultiply_self_atom (.base i) rfl]
    show UnitE.derived (.fcons (.base i) (mkRat 2 1) .fnil) .fnil = _
    rw [mkRat_two_one]
  | .named i v, _ => by
    have h1 : opMul (.named i v) (.named i v) = exprMultiply (.named i v) (.named i v) := rfl
    rw [h1, exprMultiply_self_atom (.named i v) rfl]
    show UnitE.derived (.fcons (.named i v) (mkRat 2 1) .fnil) .fnil = _
    rw [mkRat_two_one]
  | .scaled m v, h => by
    simp only [wfU, Bool.and_eq_true, decide_eq_true_eq] at h
    obtain ⟨⟨⟨hm, hne⟩, -⟩, hv⟩ := h
    show UnitE.scaled (magPow m (mkRat 2 1)) (opPow 2 1 v) = smul (magMul m m) (opMul v v)
    rw [mkRat_two_one, magPow_two hm, opPow_two v hv]
    unfold smul
    rw [if_neg (magMul_self_ne_one hm hne)]
  | .derived n d, h => by
    obtain ⟨hn, hd, hsn, hsd, hdisj, -⟩ := wfU_derived_parts h
    have hpn := wfL_pos n hn
    have hpd := wfL_pos d hd
    have hwn : wfT (toL n) := ⟨hsn, fun p hp => ne_of_gt (hpn p hp)⟩
    have hwd : wfT (toL d) := ⟨hsd, fun p hp => ne_of_gt (hpd p hp)⟩
    have hS : ∀ x, texp (sumT ((toL n ++ negT (toL d)) ++ (toL n ++ negT (toL d)))) x =
        (texp (toL n) x - texp (toL d) x) + (texp (toL n) x - texp (toL d) x) := by
      intro x
      rw [sumT_texp, lexpSum_append, lexpSum_append, lexpSum_negT,
        lexpSum_eq_texp hsn, lexpSum_eq_texp hsd]
      ring
    have hps : splitPos (sumT ((toL n ++ negT (toL d)) ++ (toL n ++ negT (toL d)))) =
        scaleT (toL n) 2 := by
      apply tExt (wfT_splitPos (wfT_sumT _)) (wfT_scaleT hwn (by norm_num))
      intro x
      rw [splitPos_texp (sumT_sorted _), hS x, scaleT_texp]
      by_cases ha : texp (toL n) x = 0
      · rw [ha]
        by_cases hb : texp (toL d) x = 0
        · rw [hb, if_neg (by norm_num)]
          ring
        · have hbp : 0 < texp (toL d) x := texp_pos hsd hpd hb
          rw [if_neg (by linarith)]
          ring
      · have hap : 0 < texp (toL n) x := texp_pos hsn hpn ha
        have hb : texp (toL d) x = 0 := disjoint_texp hdisj ha
        rw [hb, if_pos (by linarith)]
        ring
    have hnsp : splitNeg (sumT ((toL n ++ negT (toL d)) ++ (toL n ++ negT (toL d)))) =
        scaleT (toL d) 2 := by
      apply tExt (wfT_splitNeg (wfT_sumT _)) (wfT_scaleT hwd (by norm_num))
      intro x
      rw [splitNeg_texp (sumT_sorted _), hS x, scaleT_texp]
      by_cases hb : texp (toL d) x = 0
      · rw [hb]
        by_cases ha : texp (toL n) x = 0
        · rw [ha, if_neg (by norm_num)]
          ring
        · have hap : 0 < texp (toL n) x := texp_pos hsn hpn ha
          rw [if_neg (by linarith)]
          ring
      · have hbp : 0 < texp (toL d) x := texp_pos hsd hpd hb
        have ha : texp (toL n) x = 0 :=
          disjoint_texp (fun q hq p hp he => hdisj p hp q hq he.symm) hb
        rw [ha, if_pos (by linarith)]
        ring
    show mk2 (scaleT (toL n) (mkRat 2 1)) (scaleT (toL d) (mkRat 2 1)) =
      mk2 (normTerms (toTerms (.derived n d) ++ toTerms (.derived n d))).1
        (normTerms (toTerms (.derived n d) ++ toTerms (.derived n d))).2
    rw [mkRat_two_one]
    unfold normTerms toTerms
    dsimp only
    rw [hps, hnsp]

/-! ### The separator invariant of the formatter -/

theorem printSeparator_no_dot {fmt : FmtOpts} {s : List Tok} (he : fmt.encoding = .ascii)
    (h : printSeparator fmt = .ok s) : Tok.sepDot ∉ s := by
  unfold printSeparator at h
  by_cases hd : fmt.separator = .dot
  · rw [if_pos hd, he] at h
    simp at h
  · rw [if_neg hd] at h
    injection h with h2
    rw [← h2]
    simp

theorem magnitudeText_no_dot {m : Mag} {t : List Tok} (h : magnitudeText m = .ok t) :
    Tok.sepDot ∉ t := by
  unfold magnitudeText at h
  split at h
  · injection h with h2
    rw [← h2]
    simp
  · exact Except.noConfusion h

theorem no_dot_ite_ch {c : Prop} [Decidable c] {x : Char} :
    Tok.sepDot ∉ (if c then [Tok.ch x] else ([] : List Tok)) := by
  split <;> simp

mutual
/-- Under ASCII encoding no successful symbol output contains the
interpunct separator token. -/
theorem symU_no_dot : ∀ (u : UnitE) (fmt : FmtOpts) (b : Bool) (out : List Tok),
    fmt.encoding = .ascii → symU fmt b u = .ok out → Tok.sepDot ∉ out
  | .base i, fmt, b, out, _, h => by
    injection h with h2
    rw [← h2]
    cases b <;> simp
  | .named i v, fmt, b, out, _, h => by
    injection h with h2
    rw [← h2]
    cases b <;> simp
  | .scaled m u, fmt, b, out, he, h => by
    simp only [symU] at h
    split at h
    · exact symU_no_dot u fmt b out he h
    · split at h
      · exact Except.noConfusion h
      · rename_i mt heq
        split at h
        · injection h with h2
          rw [← h2]
          exact magnitudeText_no_dot heq
        · split at h
          · exact Except.noConfusion h
          · rename_i ut hut
            injection h with h2
            rw [← h2]
            intro hmem
            simp only [List.mem_append] at hmem
            rcases hmem with (h3 | h3) | h3
            · exact magnitudeText_no_dot heq h3
            · simp at h3
            · exact symU_no_dot u fmt b ut he hut h3
  | .derived .fnil .fnil, fmt, b, out, he, h => by
    cases b with
    | true => exact Except.noConfusion h
    | false =>
      injection h with h2
      rw [← h2]
      simp
  | .derived (.fcons a q r) .fnil, fmt, b, out, he, h => by
    cases b with
    | true => exact Except.noConfusion h
    | false => exact symList_no_dot (.fcons a q r) fmt false true out he h
  | .derived .fnil (.fcons v f s), fmt, b, out, he, h => by
    simp only [symU] at h
    split at h
    · exact Except.noConfusion h
    · split at h
      · exact Except.noConfusion h
      · rename_i st hst
        split at h
        · exact Except.noConfusion h
        · rename_i dt hdt
          injection h with h2
          rw [← h2]
          have h1 : Tok.sepDot ∉ st := by
            split at hst
            · injection hst with h3
              rw [← h3]
              simp
            · exact printSeparator_no_dot he hst
          have h3 : Tok.sepDot ∉ dt :=
            symList_no_dot (.fcons v f s) fmt _ true dt he hdt
          intro hmem
          simp only [List.mem_append] at hmem
          rcases hmem with (((h4 | h4) | h4) | h4) | h4
          · simp at h4
          · exact h1 h4
          · exact no_dot_ite_ch h4
          · exact h3 h4
          · exact no_dot_ite_ch h4
  | .derived (.fcons a q r) (.fcons v f s), fmt, b, out, he, h => by
    simp only [symU] at h
    split at h
    · exact Except.noConfusion h
    · split at h
      · exact Except.noConfusion h
      · rename_i nt hnt
        split at h
        · exact Except.noConfusion h
        · rename_i st hst
          split at h
          · exact Except.noConfusion h
          · rename_i dt hdt
            injection h with h2
            rw [← h2]
            have h0 : Tok.sepDot ∉ nt :=
              symList_no_dot (.fcons a q r) fmt false true nt he hnt
            have h1 : Tok.sepDot ∉ st := by
              split at hst
              · injection hst with h3
                rw [← h3]
                simp
              · exact printSeparator_no_dot he hst
            have h3 : Tok.sepDot ∉ dt :=
              symList_no_dot (.fcons v f s) fmt _ true dt he hdt
            intro hmem
            simp only [List.mem_append] at hmem
            rcases hmem with (((h4 | h4) | h4) | h4) | h4
            · exact h0 h4
            · exact h1 h4
            · exact no_dot_ite_ch h4
            · exact h3 h4
            · exact no_dot_ite_ch h4

/-- Under ASCII encoding no successful factor-list output contains the
interpunct separator token. -/
theorem symList_no_dot : ∀ (l : FactorList) (fmt : FmtOpts) (b f : Bool) (out : List Tok),
    fmt.encoding = .ascii → symList fmt b f l = .ok out → Tok.sepDot ∉ out
  | .fnil, fmt, b, f, out, _, h => by
    injection h with h2
    rw [← h2]
    simp
  | .fcons u e t, fmt, b, f, out, he, h => by
    simp only [symList] at h
    split at h
    · exact Except.noConfusion h
    · rename_i st hst
      split at h
      · exact Except.noConfusion h
      · rename_i ft hft
        split at h
        · exact Except.noConfusion h
        · rename_i rt hrt
          injection h with h2
          rw [← h2]
          have h1 : Tok.sepDot ∉ st := by
            split at hst
            · injection hst with h3
              rw [← h3]
              simp
            · exact printSeparator_no_dot he hst
          have h2f : Tok.sepDot ∉ ft := by
            split at hft
            · exact symU_no_dot u fmt b ft he hft
            · split at hft
              · exact Except.noConfusion hft
              · rename_i ut hut
                split at hft
                · injection hft with h3
                  rw [← h3]
                  intro hmem
                  rcases List.mem_append.mp hmem with h4 | h4
                  · exact symU_no_dot u fmt false ut he hut h4
                  · simp at h4
                · split at hft
                  · injection hft with h3
                    rw [← h3]
                    intro hmem
                    rcases List.mem_append.mp hmem with h4 | h4
                    · exact symU_no_dot u fmt false ut he hut h4
                    · simp at h4
                  · injection hft with h3
                    rw [← h3]
                    intro hmem
                    rcases List.mem_append.mp hmem with h4 | h4
                    · exact symU_no_dot u fmt false ut he hut h4
                    · simp at h4
          have h3r : Tok.sepDot ∉ rt := symList_no_dot t fmt b false rt he hrt
          intro hmem
          simp only [List.mem_append] at hmem
          rcases hmem with (h4 | h4) | h4
          · exact h1 h4
          · exact h2f h4
          · exact h3r h4
end

/-! ### Integer-ratio characterization for common-unit resolution -/

/-- `is_integral(a / b)` holds exactly when `a` is `b` multiplied by an
integral magnitude. -/
theorem integral_ratio_iff {a b : Mag} (ha : wfMag a) (hb : wfMag b) :
    isIntegral (magDiv a b) = true ↔
      ∃ k, wfMag k ∧ isIntegral k = true ∧ magMul k b = a := by
  constructor
  · intro h
    exact ⟨magDiv a b, wfMag_magDiv ha hb, h, magDiv_magMul_cancel ha hb⟩
  · rintro ⟨k, hk, hki, hke⟩
    have h2 : magDiv a b = k := by
      apply magExt (wfMag_magDiv ha hb) hk
      intro x
      rw [magDiv_expOf ha.1 hb.1, ← hke, magMul_expOf hk.1 hb.1]
      ring
    rw [h2]
    exact hki

/-- A magnitude that is integral together with its inverse is the
identity. -/
theorem isIntegral_inv_eq_one {m : Mag} (h : wfMag m) (h1 : isIntegral m = true)
    (h2 : isIntegral (magInv m) = true) : m = magOne := by
  cases m with
  | nil => rfl
  | cons p t =>
    exfalso
    unfold isIntegral at h1 h2
    rw [List.all_eq_true] at h1 h2
    have ha := h1 p (List.mem_cons_self p t)
    have hbm : (p.1, qneg p.2) ∈ magInv (p :: t) := by
      unfold magInv
      exact List.mem_map_of_mem _ (List.mem_cons_self p t)
    have hb := h2 _ hbm
    simp only [Bool.and_eq_true, decide_eq_true_eq] at ha hb
    have hn1 : 0 ≤ p.2.num := ha.2
    have hn2 : 0 ≤ (qneg p.2).num := hb.2
    have hn3 : (qneg p.2).num = -p.2.num := rfl
    rw [hn3] at hn2
    have hz : p.2.num = 0 := by omega
    have hpz : p.2 = 0 := by
      rw [← Rat.num_eq_zero]
      exact hz
    exact h.2 p (List.mem_cons_self p t) hpz

/-- `magInv` of a quotient is the reverse quotient. -/
theorem magInv_magDiv {a b : Mag} (ha : wfMag a) (hb : wfMag b) :
    magInv (magDiv a b) = magDiv b a := by
  apply magExt (wfMag_magInv (wfMag_magDiv ha hb)) (wfMag_magDiv hb ha)
  intro x
  rw [magInv_expOf, magDiv_expOf ha.1 hb.1, magDiv_expOf hb.1 ha.1]
  ring

/-- A scaled wrapper is never equal to the unit it wraps. -/
theorem scaled_ne_self (m : Mag) (u : UnitE) : UnitE.scaled m u ≠ u := by
  intro h
  have h2 := congrArg sizeOf h
  simp only [UnitE.scaled.sizeOf_spec] at h2
  omega

/-! ### The claims -/

/-- Claim C1: `operator==` returns true iff the canonical base-unit
reference expressions are structurally identical and the canonical
magnitudes are equal; in particular `second^-1 == hertz` holds while
`metre == kilometre` fails. -/
theorem claim_C1 :
    (∀ l r : UnitE, unitEqb l r = true ↔
      ((canon l).cref = (canon r).cref ∧ (canon l).cmag = (canon r).cmag)) ∧
    unitEqb (opPow (-1) 1 second) hertz = true ∧
    unitEqb metre kilometre = false := by
  refine ⟨fun l r => ?_, by decide, by decide⟩
  simp [unitEqb]

/-- Applying claim C1 at concrete units. -/
theorem claim_C1_witness : unitEqb metre metre = true :=
  (claim_C1.1 metre metre).mpr ⟨rfl, rfl⟩

/-- Claim C2: `convertible` returns true iff the canonical base-unit
reference expressions are structurally identical, regardless of the
canonical magnitudes; in particular metre and kilometre are convertible
while metre and second are not. -/
theorem claim_C2 :
    (∀ l r : UnitE, convertibleb l r = true ↔ (canon l).cref = (canon r).cref) ∧
    convertibleb metre kilometre = true ∧
    convertibleb metre second = false := by
  refine ⟨fun l r => ?_, by decide, by decide⟩
  simp [convertibleb]

/-- Applying claim C2 at concrete units. -/
theorem claim_C2_witness : convertibleb metre metre = true :=
  (claim_C2.1 metre metre).mpr rfl

/-- Claim C3: common-unit resolution for convertible units: if the units
are equal the more specifically-named (derived-from) operand wins; if one
canonical magnitude is the other multiplied by an integral magnitude, the
operand with the smaller canonical magnitude wins; otherwise the result is
a scaled unit whose magnitude is the common magnitude (pointwise minimum
of exponents) over the shared canonical reference unit. -/
theorem claim_C3 (u1 u2 : UnitE) (hc : convertibleb u1 u2 = true) :
    (unitEqb u1 u2 = true →
      commonTypeImpl u1 u2 = if derivedFromb u1 u2 then u1 else u2) ∧
    (unitEqb u1 u2 = false →
      ((∃ k, wfMag k ∧ isIntegral k = true ∧
          magMul k (canon u2).cmag = (canon u1).cmag) →
        commonTypeImpl u1 u2 = u2) ∧
      ((∃ k, wfMag k ∧ isIntegral k = true ∧
          magMul k (canon u1).cmag = (canon u2).cmag) →
        commonTypeImpl u1 u2 = u1) ∧
      ((¬∃ k, wfMag k ∧ isIntegral k = true ∧
          magMul k (canon u2).cmag = (canon u1).cmag) →
       (¬∃ k, wfMag k ∧ isIntegral k = true ∧
          magMul k (canon u1).cmag = (canon u2).cmag) →
        commonTypeImpl u1 u2 =
          .scaled (commonMag (canon u1).cmag (canon u2).cmag) (canon u1).cref)) ∧
    (∀ x, expOf (commonMag (canon u1).cmag (canon u2).cmag) x =
      min (expOf (canon u1).cmag x) (expOf (canon u2).cmag x)) := by
  have hw1 := canon_wfMag u1
  have hw2 := canon_wfMag u2
  have href : (canon u1).cref = (canon u2).cref := by
    unfold convertibleb at hc
    exact of_decide_eq_true hc
  refine ⟨?_, ?_, fun x => expOf_commonMag hw1 hw2 x⟩
  · intro he
    unfold commonTypeImpl
    rw [he]
    simp
  · intro hne
    have hmagne : (canon u1).cmag ≠ (canon u2).cmag := by
      intro hmm
      have h2 : unitEqb u1 u2 = true := by
        unfold unitEqb
        rw [href, hmm]
        simp
      rw [h2] at hne
      exact Bool.noConfusion hne
    refine ⟨?_, ?_, ?_⟩
    · intro he1
      have hI1 : isIntegral (magDiv (canon u1).cmag (canon u2).cmag) = true :=
        (integral_ratio_iff hw1 hw2).mpr he1
      unfold commonTypeImpl
      rw [hne, hI1]
      simp
    · intro he2
      have hI2 : isIntegral (magDiv (canon u2).cmag (canon u1).cmag) = true :=
        (integral_ratio_iff hw2 hw1).mpr he2
      have hI1 : isIntegral (magDiv (canon u1).cmag (canon u2).cmag) = false := by
        by_contra hcon
        rw [Bool.not_eq_false] at hcon
        have hint2 : isIntegral (magInv (magDiv (canon u1).cmag (canon u2).cmag)) = true := by
          rw [magInv_magDiv hw1 hw2]
          exact hI2
        have hone := isIntegral_inv_eq_one (wfMag_magDiv hw1 hw2) hcon hint2
        exact hmagne ((magDiv_eq_one_iff hw1 hw2).mp hone)
      unfold commonTypeImpl
      rw [hne, hI1, hI2]
      simp
    · intro hn1 hn2
      have hI1 : isIntegral (magDiv (canon u1).cmag (canon u2).cmag) = false := by
        by_contra hcon
        rw [Bool.not_eq_false] at hcon
        exact hn1 ((integral_ratio_iff hw1 hw2).mp hcon)
      have hI2 : isIntegral (magDiv (canon u2).cmag (canon u1).cmag) = false := by
        by_contra hcon
        rw [Bool.not_eq_false] at hcon
        exact hn2 ((integral_ratio_iff hw2 hw1).mp hcon)
      unfold commonTypeImpl
      rw [hne, hI1, hI2]
      simp

/-- Applying claim C3 to kilometre and metre: the kilometre's canonical
magnitude is an integral multiple of the metre's, so the metre wins. -/
theorem claim_C3_witness : commonTypeImpl kilometre metre = metre :=
  ((claim_C3 kilometre metre (by decide)).2.1 (by decide)).1
    ⟨(canon kilometre).cmag, by decide, by decide, by decide⟩

/-- Claim C4: canonicalizing a powered term raises both the canonical
magnitude and the canonical reference expression of the base unit to the
same rational power (the reference through `power_or_T`, which keeps a bare
unit at exponent one). -/
theorem claim_C4 (u : UnitE) (e : Rat) :
    canonTerm u e = ⟨magPow (canon u).cmag e,
      if e = 1 then (canon u).cref
      else .derived (.fcons (canon u).cref e .fnil) .fnil⟩ := by
  unfold canonTerm
  by_cases he : e = 1
  · rw [if_pos he, if_pos he, he, magPow_one]
  · rw [if_neg he, if_neg he]

/-- Applying claim C4 at the squared metre term. -/
theorem claim_C4_witness : canonTerm metre 2 = ⟨magPow (canon metre).cmag 2,
    if (2 : Rat) = 1 then (canon metre).cref
    else .derived (.fcons (canon metre).cref 2 .fnil) .fnil⟩ :=
  claim_C4 metre 2

/-- Claim C5: the power laws on well-formed units: squaring is
self-multiplication, the first power is the unit itself under `==`, and
double inversion through `1 / U` recovers the unit under `==`. -/
theorem claim_C5 (u : UnitE) (h : wfU u = true) :
    opPow 2 1 u = opMul u u ∧
    unitEqb (opPow 1 1 u) u = true ∧
    ∃ v w, opIntDiv 1 u = some v ∧ opIntDiv 1 v = some w ∧ unitEqb w u = true := by
  refine ⟨opPow_two u h, ?_, ?_⟩
  · unfold unitEqb
    rw [opPow_one_canon u h]
    simp
  · refine ⟨exprInvert u, exprInvert (exprInvert u), rfl, rfl, ?_⟩
    rw [exprInvert_invert u h]
    exact unitEqb_refl u

/-- Applying claim C5 to the kilometre. -/
theorem claim_C5_witness : opPow 2 1 kilometre = opMul kilometre kilometre :=
  (claim_C5 kilometre (by decide)).1

/-- Claim C6: multiplying a magnitude onto a well-formed unit collapses to
the bare unit exactly when the magnitude is the identity, wraps in a scaled
unit otherwise, and never produces an identity-magnitude scaled wrapper. -/
theorem claim_C6 (m : Mag) (u : UnitE) (h : wfU u = true) :
    (smul m u = u ↔ m = magOne) ∧
    (m ≠ magOne → smul m u = .scaled m u) ∧
    ∀ v, smul m u ≠ .scaled magOne v := by
  refine ⟨⟨?_, ?_⟩, ?_, ?_⟩
  · intro hs
    by_contra hm
    rw [show smul m u = .scaled m u from by unfold smul; rw [if_neg hm]] at hs
    exact scaled_ne_self m u hs
  · intro hm
    unfold smul
    rw [if_pos hm]
  · intro hm
    unfold smul
    rw [if_neg hm]
  · intro v hv
    by_cases hm : m = magOne
    · rw [show smul m u = u from by unfold smul; rw [if_pos hm]] at hv
      rw [hv] at h
      simp only [wfU, Bool.and_eq_true, decide_eq_true_eq] at h
      exact h.1.1.2 rfl
    · rw [show smul m u = .scaled m u from by unfold smul; rw [if_neg hm]] at hv
      injection hv with h1 h2
      exact hm h1

/-- Applying claim C6 to the magnitude 1000 and the metre. -/
theorem claim_C6_witness : smul mag1000 metre = .scaled mag1000 metre :=
  (claim_C6 mag1000 metre (by decide)).2.1 (by decide)

/-- Claim C7 (counterexample to the stated property): under ASCII encoding
with the dot separator the formatter does not fail for every unit — the
metre needs no separator and formats successfully. -/
theorem claim_C7_counterexample :
    unitSymbol metre ⟨.ascii, .solidusOne, .dot⟩ = .ok [.bsym 0] := rfl

/-- Claim C7 (amended): under ASCII encoding the formatter never emits the
interpunct separator token; whenever the dot separator style must actually
print a separator, `print_separator` fails with `UnsupportedOption`, so a
unit that needs one (such as metre * second) fails to format. -/
theorem claim_C7 :
    (∀ (u : UnitE) (fmt : FmtOpts) (out : List Tok), fmt.encoding = .ascii →
      unitSymbol u fmt = .ok out → Tok.sepDot ∉ out) ∧
    (∀ fmt : FmtOpts, fmt.encoding = .ascii → fmt.separator = .dot →
      printSeparator fmt = .error .unsupportedOption) ∧
    unitSymbol (opMul metre second) ⟨.ascii, .solidusOne, .dot⟩ =
      .error .unsupportedOption := by
  refine ⟨?_, ?_, rfl⟩
  · intro u fmt out he hok
    exact symU_no_dot u fmt false out he hok
  · intro fmt he hd
    unfold printSeparator
    rw [if_pos hd, he]
    simp

/-- Applying claim C7 to a successful ASCII formatting. -/
theorem claim_C7_witness : Tok.sepDot ∉ [Tok.bsym 0, Tok.ch '/', Tok.bsym 1] :=
  claim_C7.1 (opDiv metre second) ⟨.ascii, .solidusOne, .space⟩
    [Tok.bsym 0, Tok.ch '/', Tok.bsym 1] rfl rfl

/-- Claim C8: the integer-over-unit division carries the contract
`value == 1`: it succeeds exactly on one, yielding the inverted unit
expression, and any other integer is a contract violation. -/
theorem claim_C8 (n : Int) (u : UnitE) :
    ((opIntDiv n u).isSome ↔ n = 1) ∧
    (n = 1 → opIntDiv n u = some (exprInvert u)) ∧
    (n ≠ 1 → opIntDiv n u = none) := by
  unfold opIntDiv
  by_cases hn : n = 1
  · rw [if_pos hn]
    exact ⟨⟨fun _ => hn, fun _ => rfl⟩, fun _ => rfl, fun hg => absurd hn hg⟩
  · rw [if_neg hn]
    refine ⟨⟨fun hg => ?_, fun hg => absurd hg hn⟩, fun hg => absurd hg hn, fun _ => rfl⟩
    simp [Option.isSome] at hg

/-- Applying claim C8 to the contract-violating input two. -/
theorem claim_C8_witness : opIntDiv 2 metre = none :=
  (claim_C8 2 metre).2.2 (by decide)

/-- Claim C9: multiplication and division of units never place a scaled
unit inside a derived-unit expression: the invariant that no factor of a
derived unit is a scaled unit is preserved by both operators. -/
theorem claim_C9 (a b : UnitE) (ha : noScaledFactors a) (hb : noScaledFactors b) :
    noScaledFactors (opMul a b) ∧ noScaledFactors (opDiv a b) :=
  ⟨opMul_nsf a b ha hb, opDiv_nsf a b ha hb⟩

/-- Applying claim C9 to a product and quotient with a scaled operand. -/
theorem claim_C9_witness : noScaledFactors (opMul metre (.scaled mag1000 second)) ∧
    noScaledFactors (opDiv metre (.scaled mag1000 second)) :=
  claim_C9 metre (.scaled mag1000 second) True.intro True.intro

/-- Claim C10: magnitude formatting succeeds exactly when the magnitude,
after extracting the largest power of ten, has only prime bases with
integral exponents (an exact ratio of two integers); a pi basis or a
fractional exponent is rejected. -/
theorem claim_C10 (m : Mag) (h : wfMag m) :
    ((∃ t, magnitudeText m = .ok t) ↔
      ∀ p ∈ magDiv m (pow10 (extractPow10 m)),
        (isPrimB p.1 && (p.2.den == 1)) = true) ∧
    magnitudeText [(.tagpi, 1)] = .error .magUnsupported ∧
    magnitudeText [(.prim 3, mkRat 1 2)] = .error .magUnsupported := by
  refine ⟨?_, rfl, rfl⟩
  have hbase : wfMag (magDiv m (pow10 (extractPow10 m))) :=
    wfMag_magDiv h (wfMag_pow10 _)
  constructor
  · rintro ⟨t, ht⟩
    unfold magnitudeText at ht
    split at ht
    · rename_i hcond
      exact (magNumDen_iff hbase).mp hcond
    · exact Except.noConfusion ht
  · intro hall
    refine ⟨[.magTok m], ?_⟩
    unfold magnitudeText
    rw [if_pos ((magNumDen_iff hbase).mpr hall)]

/-- Applying claim C10 to the magnitude 1000, which formats
successfully. -/
theorem claim_C10_witness : ∃ t, magnitudeText mag1000 = .ok t :=
  ((claim_C10 mag1000 (by decide)).1).mpr (by decide)
